import Mathlib

set_option maxRecDepth 4000

/-!
Shallow embedding of the MangaTracker backend (src/backend/main.py) and
verification of the frozen claims about it.

Modeling conventions:
* Python `str` values are modeled as `List Char` (code points), called `PyStr`.
* Python `float` values produced by parsing decimal chapter labels are modeled
  as exact rationals `ℚ` (the code only parses and compares them; IEEE-754
  rounding of decimal literals is not modeled).
* Character classes used by the code (`\s`, `str.split()`, `str.casefold`,
  `str.lower`, `re.IGNORECASE`) are modeled at the ASCII level; code points
  beyond ASCII are left unchanged by the case model and are not treated as
  whitespace/digits.  All claim-relevant inputs are ASCII.
* Functions that Python implements with loops and mutation are written as
  folds / structural recursions over the same data, in the same order.
-/

namespace MangaTracker

/-- Python `str` modeled as a list of code points. -/
abbrev PyStr := List Char

/-- ASCII whitespace: the characters matched by `\s` and split on by
`str.split()` (Unicode whitespace beyond ASCII not modeled). -/
def isPySpace (c : Char) : Bool :=
  c.toNat == 32 || c.toNat == 9 || c.toNat == 10 || c.toNat == 13 ||
    c.toNat == 11 || c.toNat == 12

/-- ASCII decimal digit, the model of the regex class `\d`
(Unicode category Nd digits beyond ASCII not modeled). -/
def isAsciiDigit (c : Char) : Bool := 48 ≤ c.toNat && c.toNat ≤ 57

def isAsciiUpper (c : Char) : Bool := 65 ≤ c.toNat && c.toNat ≤ 90

def isAsciiLower (c : Char) : Bool := 97 ≤ c.toNat && c.toNat ≤ 122

/-- Model of `str.casefold` / `str.lower` on one character: ASCII uppercase is
mapped to lowercase, everything else kept (multi-character Unicode foldings
such as ß → ss are not modeled; such characters are discarded by
`normalize_text`'s substitution step in both Python and this model). -/
def pyCasefoldChar (c : Char) : Char :=
  if isAsciiUpper c then Char.ofNat (c.toNat + 32) else c

/-- Characters kept by `re.sub(r"[^a-z0-9\s]", " ", value)`:
lowercase ASCII letters, ASCII digits and whitespace. -/
def isKeptChar (c : Char) : Bool := isAsciiLower c || isAsciiDigit c || isPySpace c

/-- One step of `re.sub(r"[^a-z0-9\s]", " ", value)`. -/
def subChar (c : Char) : Char := if isKeptChar c then c else ' '

/-- Accumulator-based model of Python's `str.split()` (split on whitespace
runs, discarding empty pieces).  `acc` holds the current word reversed. -/
def splitAux : PyStr → PyStr → List PyStr
  | [], acc => if acc = [] then [] else [acc.reverse]
  | c :: cs, acc =>
    if isPySpace c then
      if acc = [] then splitAux cs [] else acc.reverse :: splitAux cs []
    else
      splitAux cs (c :: acc)

/-- Python `value.split()` (no arguments: split on whitespace, no empties). -/
def pySplit (s : PyStr) : List PyStr := splitAux s []

/-- Python `" ".join(words)`. -/
def joinWords : List PyStr → PyStr
  | [] => []
  | [w] => w
  | w :: rest => w ++ ' ' :: joinWords rest

/-- `normalize_text` from main.py:
`value.casefold()`, then `re.sub(r"[^a-z0-9\s]", " ", value)`,
then `" ".join(value.split())`. -/
def normalizeText (s : PyStr) : PyStr :=
  joinWords (pySplit ((s.map pyCasefoldChar).map subChar))

/-- Python `str.strip()` (ASCII whitespace model). -/
def pyStrip (s : PyStr) : PyStr :=
  ((s.dropWhile isPySpace).reverse.dropWhile isPySpace).reverse

section NormalizeLemmas

theorem map_id_of_mem {α : Type} (f : α → α) (l : List α)
    (h : ∀ c ∈ l, f c = c) : l.map f = l := by
  induction l with
  | nil => rfl
  | cons x xs ih =>
      simp only [List.map_cons, h x (by simp)]
      rw [ih (fun c hc => h c (by simp [hc]))]

theorem splitAux_append_word (w : PyStr) (r acc : PyStr)
    (hw : ∀ c ∈ w, isPySpace c = false) :
    splitAux (w ++ r) acc = splitAux r (w.reverse ++ acc) := by
  induction w generalizing acc with
  | nil => simp
  | cons c w' ih =>
      have hc : isPySpace c = false := hw c (by simp)
      have hw' : ∀ x ∈ w', isPySpace x = false := fun x hx =>
        hw x (List.mem_cons_of_mem _ hx)
      have step : splitAux (c :: (w' ++ r)) acc = splitAux (w' ++ r) (c :: acc) := by
        simp [splitAux, hc]
      rw [List.cons_append, step, ih _ hw']
      simp

theorem mem_splitAux_chars (s : PyStr) (acc : PyStr) (w : PyStr)
    (hw : w ∈ splitAux s acc) : ∀ c ∈ w, c ∈ s ∨ c ∈ acc := by
  induction s generalizing acc with
  | nil =>
      intro c hc
      unfold splitAux at hw
      split at hw
      · simp at hw
      · simp only [List.mem_singleton] at hw
        subst hw
        exact Or.inr (by simpa using hc)
  | cons x xs ih =>
      intro c hc
      unfold splitAux at hw
      split at hw
      · split at hw
        · rcases ih [] hw c hc with h | h
          · exact Or.inl (List.mem_cons_of_mem _ h)
          · simp at h
        · rcases List.mem_cons.mp hw with h | h
          · subst h
            exact Or.inr (by simpa using hc)
          · rcases ih [] h c hc with h1 | h1
            · exact Or.inl (List.mem_cons_of_mem _ h1)
            · simp at h1
      · rcases ih _ hw c hc with h | h
        · exact Or.inl (List.mem_cons_of_mem _ h)
        · rcases List.mem_cons.mp h with h1 | h1
          · subst h1
            exact Or.inl (List.mem_cons_self _ _)
          · exact Or.inr h1

theorem mem_splitAux_good (s : PyStr) (acc : PyStr)
    (hacc : ∀ c ∈ acc, isPySpace c = false) (w : PyStr)
    (hw : w ∈ splitAux s acc) : w ≠ [] ∧ ∀ c ∈ w, isPySpace c = false := by
  induction s generalizing acc with
  | nil =>
      unfold splitAux at hw
      split at hw
      · simp at hw
      · rename_i hne
        simp only [List.mem_singleton] at hw
        subst hw
        exact ⟨by simpa using hne, fun c hc => hacc c (by simpa using hc)⟩
  | cons x xs ih =>
      unfold splitAux at hw
      split at hw
      · split at hw
        · exact ih [] (by simp) hw
        · rename_i hne
          rcases List.mem_cons.mp hw with h | h
          · subst h
            exact ⟨by simpa using hne, fun c hc => hacc c (by simpa using hc)⟩
          · exact ih [] (by simp) h
      · rename_i hx
        refine ih _ ?_ hw
        intro c hc
        rcases List.mem_cons.mp hc with h | h
        · subst h
          simpa using hx
        · exact hacc c h

theorem pySplit_joinWords (ws : List PyStr)
    (h : ∀ w ∈ ws, w ≠ [] ∧ ∀ c ∈ w, isPySpace c = false) :
    pySplit (joinWords ws) = ws := by
  induction ws with
  | nil => simp [pySplit, joinWords, splitAux]
  | cons w rest ih =>
      obtain ⟨hne, hns⟩ := h w (by simp)
      cases rest with
      | nil =>
          show splitAux (joinWords [w]) [] = [w]
          have hj : joinWords [w] = w ++ [] := by simp [joinWords]
          rw [hj, splitAux_append_word w [] [] hns]
          simp [splitAux, hne]
      | cons w2 rest2 =>
          show splitAux (joinWords (w :: w2 :: rest2)) [] = w :: w2 :: rest2
          have hj : joinWords (w :: w2 :: rest2) = w ++ ' ' :: joinWords (w2 :: rest2) := rfl
          rw [hj, splitAux_append_word w _ [] hns]
          have hsp : isPySpace ' ' = true := by decide
          rw [show splitAux (' ' :: joinWords (w2 :: rest2)) (w.reverse ++ []) =
              (w.reverse ++ []).reverse :: splitAux (joinWords (w2 :: rest2)) [] by
            simp [splitAux, hsp, hne]]
          have := ih (fun x hx => h x (by simp [hx]))
          simp only [List.append_nil, List.reverse_reverse]
          rw [show splitAux (joinWords (w2 :: rest2)) [] = w2 :: rest2 from this]

theorem mem_joinWords (ws : List PyStr) (c : Char) (hc : c ∈ joinWords ws) :
    c = ' ' ∨ ∃ w ∈ ws, c ∈ w := by
  induction ws with
  | nil => simp [joinWords] at hc
  | cons w rest ih =>
      cases rest with
      | nil =>
          simp only [joinWords] at hc
          exact Or.inr ⟨w, by simp, hc⟩
      | cons w2 rest2 =>
          rw [show joinWords (w :: w2 :: rest2) = w ++ ' ' :: joinWords (w2 :: rest2)
            from rfl] at hc
          rcases List.mem_append.mp hc with h | h
          · exact Or.inr ⟨w, by simp, h⟩
          · rcases List.mem_cons.mp h with h1 | h1
            · exact Or.inl h1
            · rcases ih h1 with h2 | ⟨w', hw', hcw'⟩
              · exact Or.inl h2
              · exact Or.inr ⟨w', by simp [hw'], hcw'⟩

theorem subChar_kept (c₀ : Char) : isKeptChar (subChar c₀) = true := by
  unfold subChar
  split
  next h => exact h
  next h => decide

theorem kept_not_space_fixed (c : Char) (hk : isKeptChar c = true)
    (hns : isPySpace c = false) :
    pyCasefoldChar c = c ∧ subChar c = c := by
  have hld : isAsciiLower c = true ∨ isAsciiDigit c = true := by
    simp only [isKeptChar, Bool.or_eq_true] at hk
    rcases hk with (h | h) | h
    · exact Or.inl h
    · exact Or.inr h
    · rw [h] at hns; exact absurd hns (by simp)
  refine ⟨?_, by simp [subChar, hk]⟩
  unfold pyCasefoldChar
  have hup : isAsciiUpper c = false := by
    rw [Bool.eq_false_iff]
    intro hcon
    simp only [isAsciiUpper, Bool.and_eq_true, decide_eq_true_eq] at hcon
    rcases hld with h | h <;>
      simp only [isAsciiLower, isAsciiDigit, Bool.and_eq_true, decide_eq_true_eq] at h <;>
      omega
  simp [hup]

/-- C9 helper: every character of `normalize_text`'s output is a kept
character (lowercase letter, digit or the space separator). -/
theorem normalizeText_chars (s : PyStr) (c : Char) (hc : c ∈ normalizeText s) :
    isKeptChar c = true := by
  unfold normalizeText at hc
  rcases mem_joinWords _ _ hc with h | ⟨w, hw, hcw⟩
  · subst h
    decide
  · have := mem_splitAux_chars _ _ _ hw c hcw
    rcases this with h | h
    · rcases List.mem_map.mp h with ⟨c₀, _, rfl⟩
      exact subChar_kept c₀
    · simp at h

/-- C9: the Text Normalizer is idempotent: for every string `s`,
`normalize_text(normalize_text(s)) = normalize_text(s)`. -/
theorem normalize_text_idempotent (s : PyStr) :
    normalizeText (normalizeText s) = normalizeText s := by
  have hgood : ∀ w ∈ pySplit ((s.map pyCasefoldChar).map subChar),
      w ≠ [] ∧ ∀ c ∈ w, isPySpace c = false :=
    fun w hw => mem_splitAux_good _ [] (by simp) w hw
  have hfix : ∀ c ∈ normalizeText s, pyCasefoldChar c = c ∧ subChar c = c := by
    intro c hc
    have hk : isKeptChar c = true := normalizeText_chars s c hc
    unfold normalizeText at hc
    rcases mem_joinWords _ _ hc with h | ⟨w, hw, hcw⟩
    · subst h
      exact ⟨by decide, by decide⟩
    · have hns : isPySpace c = false := (hgood w hw).2 c hcw
      exact kept_not_space_fixed c hk hns
  have hmap : (((normalizeText s).map pyCasefoldChar).map subChar) = normalizeText s := by
    rw [List.map_map]
    apply map_id_of_mem
    intro c hc
    have := hfix c hc
    simp [Function.comp, this.1, this.2]
  show joinWords (pySplit (((normalizeText s).map pyCasefoldChar).map subChar))
      = normalizeText s
  rw [hmap]
  show joinWords (pySplit (joinWords (pySplit ((s.map pyCasefoldChar).map subChar))))
      = normalizeText s
  rw [pySplit_joinWords _ hgood]
  rfl

end NormalizeLemmas

/-! ## Chapter Detector

Model of `CHAPTER_REGEX = re.compile(r"(?:chapter|ch\.?|c)\s*(\d+(?:\.\d+)?)",
re.IGNORECASE)`, `detect_chapter_in_snippet`, `try_parse_number`,
`extract_chapter_details` and `contains_progress_keyword`. -/

/-- Greedy match of the regex fragment `\d+(\.\d+)?` at the start of `s`:
the matched text, `none` when `s` does not start with a digit.  (If the dot
is not followed by a digit, the optional group backtracks to nothing, exactly
as in Python's engine.) -/
def parseNumberAt (s : PyStr) : Option PyStr :=
  if s.takeWhile isAsciiDigit = [] then none
  else
    match s.dropWhile isAsciiDigit with
    | '.' :: r2 =>
        if r2.takeWhile isAsciiDigit = [] then some (s.takeWhile isAsciiDigit)
        else some (s.takeWhile isAsciiDigit ++ '.' :: r2.takeWhile isAsciiDigit)
    | _ => some (s.takeWhile isAsciiDigit)

/-- If `s` starts with the (lowercase) literal `pat` compared
case-insensitively (ASCII model of `re.IGNORECASE`), the remainder of `s`. -/
def ciStrip : PyStr → PyStr → Option PyStr
  | [], s => some s
  | _ :: _, [] => none
  | p :: ps, c :: cs => if pyCasefoldChar c = p then ciStrip ps cs else none

/-- One alternative of `CHAPTER_REGEX` at the current position: the literal,
then `\s*`, then the numeric group.  Python's engine backtracks over the
greedy `\s*`, but a shorter whitespace skip leaves a whitespace character
where a digit is required, so skipping the maximal run is equivalent. -/
def chapterAltAt (pat : PyStr) (s : PyStr) : Option PyStr :=
  (ciStrip pat s).bind fun rest => parseNumberAt (rest.dropWhile isPySpace)

/-- `CHAPTER_REGEX` attempted at one position: alternatives
`chapter`, `ch.`, `ch`, `c` in the regex's preference order. -/
def chapterMatchAt (s : PyStr) : Option PyStr :=
  (chapterAltAt (r"chapter".toList) s).orElse fun _ =>
  (chapterAltAt (r"ch.".toList) s).orElse fun _ =>
  (chapterAltAt (r"ch".toList) s).orElse fun _ =>
  chapterAltAt (r"c".toList) s

/-- `CHAPTER_REGEX.search(snippet)`: leftmost position wins; the returned
value is the numeric capture group. -/
def chapterRegexSearch : PyStr → Option PyStr
  | [] => none
  | c :: cs => (chapterMatchAt (c :: cs)).orElse fun _ => chapterRegexSearch cs

/-- `re.search(r"(\d+(?:\.\d+)?)", snippet)`: first bare numeric run. -/
def digitsSearch : PyStr → Option PyStr
  | [] => none
  | c :: cs => (parseNumberAt (c :: cs)).orElse fun _ => digitsSearch cs

/-- `PROGRESS_KEYWORDS` from main.py. -/
def PROGRESS_KEYWORDS : List PyStr :=
  [r"chapter".toList, r"ch".toList, r"vol".toList, r"volume".toList,
    r"episode".toList, r"ep".toList, r"season".toList]

/-- Python `token.isdigit()` (ASCII model). -/
def pyIsDigit (t : PyStr) : Bool := !t.isEmpty && t.all isAsciiDigit

/-- `contains_progress_keyword` from main.py: any token that is a progress
keyword or purely numeric. -/
def containsProgressKeyword (tokens : List PyStr) : Bool :=
  tokens.any fun token => PROGRESS_KEYWORDS.contains token || pyIsDigit token

/-- Value of an ASCII digit string read in base 10. -/
def digitsVal (ds : PyStr) : ℕ := ds.foldl (fun a c => 10 * a + (c.toNat - 48)) 0

/-- Model of Python `float(s)` restricted to an optional sign and decimal
digits with at most one point (`float` also strips surrounding whitespace).
Exponents, underscores, `inf`/`nan` are not modeled: every call site passes a
label matched by `\d+(\.\d+)?`.  The result is the exact rational value
(IEEE-754 rounding not modeled). -/
def pyFloatOfString (s : PyStr) : Option ℚ :=
  let t := pyStrip s
  let sgnBody : Int × PyStr :=
    match t with
    | [] => (1, [])
    | c :: r => if c = '-' then (-1, r) else if c = '+' then (1, r) else (1, c :: r)
  let sgn := sgnBody.1
  let t1 := sgnBody.2
  let d1 := t1.takeWhile isAsciiDigit
  match t1.dropWhile isAsciiDigit with
  | [] => if d1 = [] then none else some (mkRat (sgn * digitsVal d1) 1)
  | '.' :: r2 =>
      let d2 := r2.takeWhile isAsciiDigit
      if r2.dropWhile isAsciiDigit = [] then
        if d1 = [] ∧ d2 = [] then none
        else
          some (mkRat (sgn * (digitsVal d1 * 10 ^ d2.length + digitsVal d2))
            (10 ^ d2.length))
      else none
  | _ => none

/-- `try_parse_number`: `float(value)`, with `ValueError` modeled as `none`. -/
def tryParseNumber (value : PyStr) : Option ℚ := pyFloatOfString value

/-- `detect_chapter_in_snippet` from main.py. -/
def detectChapterInSnippet (snippet : PyStr) : Option PyStr × Option ℚ :=
  match chapterRegexSearch snippet with
  | some g =>
      let label := pyStrip g
      (some label, tryParseNumber label)
  | none =>
      let tokens := pySplit (normalizeText snippet)
      if containsProgressKeyword tokens then
        match digitsSearch snippet with
        | some g => (some g, tryParseNumber g)
        | none => (none, none)
      else (none, none)

/-- Python truthiness of an optional string: `None` and `""` are falsy. -/
def pyTruthy (s : Option PyStr) : Bool :=
  match s with
  | none => false
  | some l => !l.isEmpty

/-- One iteration of `extract_chapter_details`' loop: skip a falsy snippet,
detect, and report the result when the label is truthy. -/
def tryDetect (os : Option PyStr) : Option (Option PyStr × Option ℚ) :=
  match os with
  | none => none
  | some s =>
      if s.isEmpty then none
      else if pyTruthy (detectChapterInSnippet s).1 = true then
        some (detectChapterInSnippet s)
      else none

/-- `extract_chapter_details(primary, secondary)` from main.py: the first
non-falsy snippet whose detection yields a truthy label wins. -/
def extractChapterDetails (primary secondary : Option PyStr) :
    Option PyStr × Option ℚ :=
  match tryDetect primary with
  | some r => r
  | none =>
      match tryDetect secondary with
      | some r => r
      | none => (none, none)

section DetectorLemmas

theorem takeWhile_append_all {p : Char → Bool} (w r : PyStr)
    (hw : ∀ c ∈ w, p c = true) :
    (w ++ r).takeWhile p = w ++ r.takeWhile p := by
  induction w with
  | nil => simp
  | cons c cs ih =>
      have hc : p c = true := hw c (by simp)
      simp [List.takeWhile_cons, hc, ih (fun x hx => hw x (by simp [hx]))]

theorem dropWhile_append_all {p : Char → Bool} (w r : PyStr)
    (hw : ∀ c ∈ w, p c = true) :
    (w ++ r).dropWhile p = r.dropWhile p := by
  induction w with
  | nil => simp
  | cons c cs ih =>
      have hc : p c = true := hw c (by simp)
      simp [List.dropWhile_cons, hc, ih (fun x hx => hw x (by simp [hx]))]

theorem takeWhile_all {p : Char → Bool} (l : PyStr) (h : ∀ c ∈ l, p c = true) :
    l.takeWhile p = l := by
  have := takeWhile_append_all l [] h
  simpa using this

theorem dropWhile_all_true {p : Char → Bool} (l : PyStr) (h : ∀ c ∈ l, p c = true) :
    l.dropWhile p = [] := by
  have := dropWhile_append_all l [] h
  simpa using this

theorem dropWhile_all_false {p : Char → Bool} (l : PyStr) (h : ∀ c ∈ l, p c = false) :
    l.dropWhile p = l := by
  induction l with
  | nil => rfl
  | cons c cs ih =>
      simp [List.dropWhile_cons, h c (by simp), ih (fun x hx => h x (by simp [hx]))]

theorem pyStrip_no_space (s : PyStr) (h : ∀ c ∈ s, isPySpace c = false) :
    pyStrip s = s := by
  unfold pyStrip
  rw [dropWhile_all_false s h,
    dropWhile_all_false s.reverse (fun c hc => h c (List.mem_reverse.mp hc)),
    List.reverse_reverse]

theorem digit_not_space (c : Char) (h : isAsciiDigit c = true) :
    isPySpace c = false := by
  simp only [isAsciiDigit, Bool.and_eq_true, decide_eq_true_eq] at h
  rw [Bool.eq_false_iff]
  intro hcon
  simp only [isPySpace, Bool.or_eq_true, beq_iff_eq] at hcon
  omega

/-- Every successful `\d+(\.\d+)?` match is a nonempty digit run, optionally
followed by a point and a second nonempty digit run. -/
theorem parseNumberAt_shape (s g : PyStr) (h : parseNumberAt s = some g) :
    ∃ d1 d2 : PyStr, d1 ≠ [] ∧ (∀ c ∈ d1, isAsciiDigit c = true) ∧
      (∀ c ∈ d2, isAsciiDigit c = true) ∧
      (g = d1 ∨ (d2 ≠ [] ∧ g = d1 ++ '.' :: d2)) := by
  have htw : ∀ c ∈ s.takeWhile isAsciiDigit, isAsciiDigit c = true :=
    fun c hc => List.mem_takeWhile_imp hc
  unfold parseNumberAt at h
  by_cases hd1 : s.takeWhile isAsciiDigit = []
  · rw [if_pos hd1] at h
    exact absurd h (by simp)
  · rw [if_neg hd1] at h
    split at h
    · rename_i r2 heq
      have htw2 : ∀ c ∈ r2.takeWhile isAsciiDigit, isAsciiDigit c = true :=
        fun c hc => List.mem_takeWhile_imp hc
      by_cases hd2 : r2.takeWhile isAsciiDigit = []
      · rw [if_pos hd2] at h
        injection h with h'
        exact ⟨s.takeWhile isAsciiDigit, [], hd1, htw, by simp, Or.inl h'.symm⟩
      · rw [if_neg hd2] at h
        injection h with h'
        exact ⟨s.takeWhile isAsciiDigit, r2.takeWhile isAsciiDigit, hd1, htw, htw2,
          Or.inr ⟨hd2, h'.symm⟩⟩
    · injection h with h'
      exact ⟨s.takeWhile isAsciiDigit, [], hd1, htw, by simp, Or.inl h'.symm⟩

theorem pyFloat_of_digits (d1 : PyStr) (h1 : d1 ≠ [])
    (hd1 : ∀ c ∈ d1, isAsciiDigit c = true) :
    pyFloatOfString d1 = some (mkRat (digitsVal d1) 1) := by
  have hstrip : pyStrip d1 = d1 :=
    pyStrip_no_space _ (fun c hc => digit_not_space c (hd1 c hc))
  have htake : d1.takeWhile isAsciiDigit = d1 := takeWhile_all _ hd1
  have hdrop : d1.dropWhile isAsciiDigit = [] := dropWhile_all_true _ hd1
  obtain ⟨c, cs, rfl⟩ : ∃ c cs, d1 = c :: cs := by
    cases d1 with
    | nil => exact absurd rfl h1
    | cons c cs => exact ⟨c, cs, rfl⟩
  have hc : isAsciiDigit c = true := hd1 c (by simp)
  have hcm : ¬(c = '-') := by
    intro h'
    rw [h'] at hc
    exact absurd hc (by decide)
  have hcp : ¬(c = '+') := by
    intro h'
    rw [h'] at hc
    exact absurd hc (by decide)
  simp only [pyFloatOfString, hstrip, hcm, hcp, if_false, htake, hdrop]
  simp

theorem pyFloat_of_digits_dot (d1 d2 : PyStr) (h1 : d1 ≠ []) (h2 : d2 ≠ [])
    (hd1 : ∀ c ∈ d1, isAsciiDigit c = true)
    (hd2 : ∀ c ∈ d2, isAsciiDigit c = true) :
    pyFloatOfString (d1 ++ '.' :: d2) =
      some (mkRat (digitsVal d1 * 10 ^ d2.length + digitsVal d2) (10 ^ d2.length)) := by
  have hns : ∀ c ∈ d1 ++ '.' :: d2, isPySpace c = false := by
    intro c hc
    rcases List.mem_append.mp hc with h | h
    · exact digit_not_space c (hd1 c h)
    · rcases List.mem_cons.mp h with h | h
      · subst h
        decide
      · exact digit_not_space c (hd2 c h)
  have hstrip : pyStrip (d1 ++ '.' :: d2) = d1 ++ '.' :: d2 := pyStrip_no_space _ hns
  have hdotd : isAsciiDigit '.' = false := by decide
  have htake : (d1 ++ '.' :: d2).takeWhile isAsciiDigit = d1 := by
    rw [takeWhile_append_all d1 _ hd1]
    simp [List.takeWhile_cons, hdotd]
  have hdrop : (d1 ++ '.' :: d2).dropWhile isAsciiDigit = '.' :: d2 := by
    rw [dropWhile_append_all d1 _ hd1]
    simp [List.dropWhile_cons, hdotd]
  have htake2 : d2.takeWhile isAsciiDigit = d2 := takeWhile_all _ hd2
  have hdrop2 : d2.dropWhile isAsciiDigit = [] := dropWhile_all_true _ hd2
  obtain ⟨c, cs, hcons⟩ : ∃ c cs, d1 ++ '.' :: d2 = c :: cs := by
    cases hv : d1 ++ '.' :: d2 with
    | nil => simp at hv
    | cons c cs => exact ⟨c, cs, rfl⟩
  have hcd : isAsciiDigit c = true := by
    have : c ∈ d1 ++ '.' :: d2 := by rw [hcons]; simp
    rcases List.mem_append.mp this with h | h
    · exact hd1 c h
    · obtain ⟨a, as, rfl⟩ : ∃ a as, d1 = a :: as := by
        cases d1 with
        | nil => exact absurd rfl h1
        | cons a as => exact ⟨a, as, rfl⟩
      have : c = a := by
        have := hcons
        simp only [List.cons_append] at this
        injection this with h' _
        exact h'.symm
      rw [this]
      exact hd1 a (by simp)
  have hcm : ¬(c = '-') := by
    intro h'
    rw [h'] at hcd
    exact absurd hcd (by decide)
  have hcp : ¬(c = '+') := by
    intro h'
    rw [h'] at hcd
    exact absurd hcd (by decide)
  rw [pyFloatOfString, hstrip]
  rw [hcons]
  simp only [hcm, hcp, if_false]
  rw [← hcons, htake, hdrop]
  simp only [htake2, hdrop2, if_pos rfl]
  have hfalse : ¬(d1 = [] ∧ d2 = []) := fun ⟨ha, _⟩ => h1 ha
  rw [if_neg hfalse]
  simp

/-- Every label produced by a `parseNumberAt` match is whitespace-free and
parses as a float. -/
theorem parseNumberAt_parses (s g : PyStr) (h : parseNumberAt s = some g) :
    g ≠ [] ∧ pyStrip g = g ∧ ∃ q, pyFloatOfString g = some q := by
  obtain ⟨d1, d2, h1, hd1, hd2, hcase⟩ := parseNumberAt_shape s g h
  rcases hcase with rfl | ⟨h2, rfl⟩
  · exact ⟨h1, pyStrip_no_space _ (fun c hc => digit_not_space c (hd1 c hc)),
      _, pyFloat_of_digits _ h1 hd1⟩
  · refine ⟨by simp, ?_, _, pyFloat_of_digits_dot _ _ h1 h2 hd1 hd2⟩
    apply pyStrip_no_space
    intro c hc
    rcases List.mem_append.mp hc with hm | hm
    · exact digit_not_space c (hd1 c hm)
    · rcases List.mem_cons.mp hm with hm | hm
      · subst hm
        decide
      · exact digit_not_space c (hd2 c hm)

theorem orElse_cases {α : Type} (a : Option α) (b : Unit → Option α) (g : α)
    (h : (a.orElse b) = some g) : a = some g ∨ (a = none ∧ b () = some g) := by
  cases a <;> simp_all [Option.orElse]

theorem chapterAltAt_origin (pat s g : PyStr) (h : chapterAltAt pat s = some g) :
    ∃ s', parseNumberAt s' = some g := by
  unfold chapterAltAt at h
  cases hcs : ciStrip pat s with
  | none => rw [hcs] at h; exact absurd h (by simp)
  | some rest =>
      rw [hcs] at h
      exact ⟨rest.dropWhile isPySpace, h⟩

theorem chapterMatchAt_origin (s g : PyStr) (h : chapterMatchAt s = some g) :
    ∃ s', parseNumberAt s' = some g := by
  unfold chapterMatchAt at h
  rcases orElse_cases _ _ _ h with h1 | ⟨_, h1⟩
  · exact chapterAltAt_origin _ _ _ h1
  rcases orElse_cases _ _ _ h1 with h2 | ⟨_, h2⟩
  · exact chapterAltAt_origin _ _ _ h2
  rcases orElse_cases _ _ _ h2 with h3 | ⟨_, h3⟩
  · exact chapterAltAt_origin _ _ _ h3
  · exact chapterAltAt_origin _ _ _ h3

theorem chapterRegexSearch_origin (s g : PyStr) (h : chapterRegexSearch s = some g) :
    ∃ s', parseNumberAt s' = some g := by
  induction s with
  | nil => exact absurd h (by simp [chapterRegexSearch])
  | cons c cs ih =>
      unfold chapterRegexSearch at h
      rcases orElse_cases _ _ _ h with h1 | ⟨_, h1⟩
      · exact chapterMatchAt_origin _ _ h1
      · exact ih h1

theorem digitsSearch_origin (s g : PyStr) (h : digitsSearch s = some g) :
    ∃ s', parseNumberAt s' = some g := by
  induction s with
  | nil => exact absurd h (by simp [digitsSearch])
  | cons c cs ih =>
      unfold digitsSearch at h
      rcases orElse_cases _ _ _ h with h1 | ⟨_, h1⟩
      · exact ⟨c :: cs, h1⟩
      · exact ih h1

/-- Case analysis on the Chapter Detector's result: either nothing is found,
or a nonempty label together with a parsed number. -/
theorem detect_pair_cases (snippet : PyStr) :
    detectChapterInSnippet snippet = (none, none) ∨
      ∃ l q, detectChapterInSnippet snippet = (some l, some q) ∧ l ≠ [] := by
  unfold detectChapterInSnippet
  cases hs : chapterRegexSearch snippet with
  | some g =>
      obtain ⟨s', hp⟩ := chapterRegexSearch_origin _ _ hs
      obtain ⟨hne, hstrip, q, hq⟩ := parseNumberAt_parses _ _ hp
      refine Or.inr ⟨pyStrip g, q, ?_, by rw [hstrip]; exact hne⟩
      simp [tryParseNumber, hstrip, hq]
  | none =>
      by_cases hk : containsProgressKeyword (pySplit (normalizeText snippet)) = true
      · rw [if_pos hk]
        cases hds : digitsSearch snippet with
        | some g =>
            obtain ⟨s', hp⟩ := digitsSearch_origin _ _ hds
            obtain ⟨hne, _, q, hq⟩ := parseNumberAt_parses _ _ hp
            exact Or.inr ⟨g, q, by simp [tryParseNumber, hq], hne⟩
        | none => exact Or.inl rfl
      · rw [if_neg hk]
        exact Or.inl rfl

/-- C10: whenever the Chapter Detector returns a non-null label, the parsed
number is also non-null: `detect_chapter_in_snippet` returns either
`(None, None)` or a pair `(label, number)` with `number ≠ None` — the
"unparseable label" branch of `try_parse_number` is unreachable here,
because every returned label matches `\d+(\.\d+)?`. -/
theorem detect_chapter_label_implies_number (snippet : PyStr) :
    detectChapterInSnippet snippet = (none, none) ∨
      ∃ l q, detectChapterInSnippet snippet = (some l, some q) := by
  rcases detect_pair_cases snippet with h | ⟨l, q, h, _⟩
  · exact Or.inl h
  · exact Or.inr ⟨l, q, h⟩

/-- C4: the Chapter Detector's spec test vectors.
`"Chapter 142.5 - Title"` yields label `"142.5"` and number `142.5`;
`"Ch.12"` yields label `"12"` and number `12.0`;
`"Random text"` yields no label and no number. -/
theorem chapter_detector_vectors :
    detectChapterInSnippet (r"Chapter 142.5 - Title".toList) =
      (some (r"142.5".toList), some (mkRat 285 2)) ∧
    detectChapterInSnippet (r"Ch.12".toList) = (some (r"12".toList), some 12) ∧
    detectChapterInSnippet (r"Random text".toList) = (none, none) := by
  refine ⟨by decide, by decide, by decide⟩

end DetectorLemmas

/-! ## Structural Matcher

Model of `difflib.SequenceMatcher(None, a, b).ratio()` and
`is_structural_match`.  No junk is involved: the code passes no junk
predicate and `autojunk` only engages for sequences of length ≥ 200, so the
two junk-extension loops of `find_longest_match` never fire and the `b2j`
table is complete.  Loop fuel arguments make the recursions structural; each
fuel value is an upper bound on the number of iterations the corresponding
Python loop can perform, so the model computes exactly the Python result. -/

/-- difflib's `b2j` table: positions of `c` in `b`, ascending. -/
def b2j (b : PyStr) (c : Char) : List Nat :=
  (List.range b.length).filter fun j => b.getD j ' ' == c

/-- One row (`for j in b2j[a[i]]`) of `find_longest_match`'s core loop.
State: the row's fresh `newj2len` table and the running best `(i, j, size)`.
`i + 1 - k` is Python's `i - k + 1` (equal since `k ≤ i + 1`), written to
avoid truncated subtraction. -/
def flmRow (j2len : List (Nat × Nat)) (i : Nat) (js : List Nat)
    (best : Nat × Nat × Nat) : (List (Nat × Nat)) × (Nat × Nat × Nat) :=
  js.foldl
    (fun st j =>
      let k := (if j = 0 then 0 else (j2len.lookup (j - 1)).getD 0) + 1
      let newBest := if k > st.2.2.2 then (i + 1 - k, j + 1 - k, k) else st.2
      (st.1 ++ [(j, k)], newBest))
    ([], best)

/-- Core dynamic-programming loop of `find_longest_match` over
`i in range(alo, ahi)`; `j < blo` entries are skipped (`continue`) and the
ascending `b2j` list is cut at the first `j ≥ bhi` (`break`). -/
def flmCore (a b : PyStr) (alo ahi blo bhi : Nat) : Nat × Nat × Nat :=
  ((List.range' alo (ahi - alo)).foldl
    (fun (st : (List (Nat × Nat)) × (Nat × Nat × Nat)) i =>
      let js := ((b2j b (a.getD i ' ')).takeWhile fun j => decide (j < bhi)).filter
        fun j => decide (blo ≤ j)
      flmRow st.1 i js st.2)
    ([], (alo, blo, 0))).2

/-- First extension loop of `find_longest_match` (extend left over equal,
non-junk neighbours; the junk set is empty).  Fuel: `besti` bounds the
iteration count. -/
def flmExtendLeft (a b : PyStr) (alo blo : Nat) :
    Nat → Nat × Nat × Nat → Nat × Nat × Nat
  | 0, st => st
  | fuel + 1, st =>
      if decide (alo < st.1) && decide (blo < st.2.1) &&
          (a.getD (st.1 - 1) ' ' == b.getD (st.2.1 - 1) ' ') then
        flmExtendLeft a b alo blo fuel (st.1 - 1, st.2.1 - 1, st.2.2 + 1)
      else st

/-- Second extension loop of `find_longest_match` (extend right).  Fuel:
`ahi` bounds the iteration count. -/
def flmExtendRight (a b : PyStr) (ahi bhi : Nat) :
    Nat → Nat × Nat × Nat → Nat × Nat × Nat
  | 0, st => st
  | fuel + 1, st =>
      if decide (st.1 + st.2.2 < ahi) && decide (st.2.1 + st.2.2 < bhi) &&
          (a.getD (st.1 + st.2.2) ' ' == b.getD (st.2.1 + st.2.2) ' ') then
        flmExtendRight a b ahi bhi fuel (st.1, st.2.1, st.2.2 + 1)
      else st

/-- `SequenceMatcher.find_longest_match(alo, ahi, blo, bhi)` with an empty
junk set. -/
def findLongestMatch (a b : PyStr) (alo ahi blo bhi : Nat) : Nat × Nat × Nat :=
  flmExtendRight a b ahi bhi ahi
    (flmExtendLeft a b alo blo (flmCore a b alo ahi blo bhi).1
      (flmCore a b alo ahi blo bhi))

/-- Sum of the sizes of all matching blocks (`get_matching_blocks`'s
recursive divide-and-conquer).  The recursion depth is at most `ahi - alo`,
so `a.length + 1` fuel at the top level reproduces Python exactly. -/
def matchingTotalF (a b : PyStr) : Nat → Nat → Nat → Nat → Nat → Nat
  | 0, _, _, _, _ => 0
  | fuel + 1, alo, ahi, blo, bhi =>
      let m := findLongestMatch a b alo ahi blo bhi
      if m.2.2 = 0 then 0
      else
        matchingTotalF a b fuel alo m.1 blo m.2.1 + m.2.2 +
          matchingTotalF a b fuel (m.1 + m.2.2) ahi (m.2.1 + m.2.2) bhi

/-- Total number of matching elements between `a` and `b`. -/
def matchingTotal (a b : PyStr) : Nat :=
  matchingTotalF a b (a.length + 1) 0 a.length 0 b.length

/-- `SequenceMatcher(None, a, b).ratio() = 2.0 * M / T` (and `1.0` when
`T = 0`), as an exact rational. -/
def seqRatio (a b : PyStr) : ℚ :=
  if a.length + b.length = 0 then 1
  else mkRat (2 * matchingTotal a b) (a.length + b.length)

/-- `is_structural_match` from main.py.  `title_set.issubset(token_set)` is
the subset test on the underlying sets of tokens; `candidate_tokens[:n]` and
`[n:]` are `take`/`drop`. -/
def isStructuralMatch (normalizedTitle : PyStr) (titleTokens : List PyStr)
    (candidateNorm : PyStr) (candidateTokens : List PyStr) : Bool :=
  if candidateNorm = [] then
    false
  else if seqRatio normalizedTitle candidateNorm ≥ mkRat 9 10 then
    true
  else if 2 ≤ titleTokens.length ∧ (∀ t ∈ titleTokens, t ∈ candidateTokens) ∧
      seqRatio normalizedTitle candidateNorm ≥ mkRat 3 4 then
    true
  else if 2 ≤ titleTokens.length ∧ titleTokens.length < candidateTokens.length ∧
      candidateTokens.take titleTokens.length = titleTokens ∧
      containsProgressKeyword (candidateTokens.drop titleTokens.length) = true then
    true
  else if titleTokens.length = 1 then
    if candidateNorm = titleTokens.getD 0 [] then
      true
    else if candidateTokens ≠ [] ∧ candidateTokens.getD 0 [] = titleTokens.getD 0 [] ∧
        containsProgressKeyword (candidateTokens.drop 1) = true then
      true
    else
      false
  else
    false

/-- C3: the Structural Matcher's spec test vectors on already-normalized
inputs (title/token arguments exactly as `locate_series_hit` passes them):
`is_match("one piece", "one piece chapter 1099")` is true,
`is_match("one", "lonely")` is false,
`is_match("blue lock", "blue")` is false. -/
theorem structural_matcher_vectors :
    isStructuralMatch (normalizeText (r"one piece".toList))
        (pySplit (normalizeText (r"one piece".toList)))
        (normalizeText (r"one piece chapter 1099".toList))
        (pySplit (normalizeText (r"one piece chapter 1099".toList))) = true ∧
    isStructuralMatch (normalizeText (r"one".toList))
        (pySplit (normalizeText (r"one".toList)))
        (normalizeText (r"lonely".toList))
        (pySplit (normalizeText (r"lonely".toList))) = false ∧
    isStructuralMatch (normalizeText (r"blue lock".toList))
        (pySplit (normalizeText (r"blue lock".toList)))
        (normalizeText (r"blue".toList))
        (pySplit (normalizeText (r"blue".toList))) = false := by
  refine ⟨by decide, by decide, by decide⟩

/-! ## Stable sort

Python's `sorted(xs, key=k)` is a stable sort by the total preorder
`k x ≤ k y`.  For a total preorder the stable sorted permutation is unique,
so the classic stable insertion sort below computes exactly `sorted`'s
output. -/

/-- Insert `x` after every element `y` with `le y x` (stable insertion). -/
def stableInsert {α : Type} (le : α → α → Bool) (x : α) : List α → List α
  | [] => [x]
  | y :: ys => if le y x then y :: stableInsert le x ys else x :: y :: ys

/-- Stable sort by the boolean total preorder `le`. -/
def pySorted {α : Type} (le : α → α → Bool) (l : List α) : List α :=
  l.foldl (fun acc x => stableInsert le x acc) []

theorem stableInsert_perm {α : Type} (le : α → α → Bool) (x : α) (l : List α) :
    (stableInsert le x l).Perm (x :: l) := by
  induction l with
  | nil => simp [stableInsert]
  | cons y ys ih =>
      unfold stableInsert
      split
      · exact ((ih.cons y).trans (List.Perm.swap x y ys)).symm.symm
      · exact List.Perm.refl _

theorem mem_stableInsert {α : Type} (le : α → α → Bool) (x z : α) (l : List α) :
    z ∈ stableInsert le x l ↔ z = x ∨ z ∈ l :=
  ⟨fun h => by
    have := (stableInsert_perm le x l).mem_iff.mp h
    simpa using this,
   fun h => (stableInsert_perm le x l).mem_iff.mpr (by simpa using h)⟩

theorem stableInsert_pairwise {α : Type} (le : α → α → Bool)
    (htrans : ∀ a b c, le a b = true → le b c = true → le a c = true)
    (htotal : ∀ a b, le a b = true ∨ le b a = true)
    (x : α) (l : List α) (hl : l.Pairwise (fun a b => le a b = true)) :
    (stableInsert le x l).Pairwise (fun a b => le a b = true) := by
  induction l with
  | nil => simp [stableInsert]
  | cons y ys ih =>
      rcases List.pairwise_cons.mp hl with ⟨hy, hys⟩
      unfold stableInsert
      split
      · rename_i hyx
        refine List.pairwise_cons.mpr ⟨?_, ih hys⟩
        intro z hz
        rcases (mem_stableInsert le x z ys).mp hz with rfl | hz
        · exact hyx
        · exact hy z hz
      · rename_i hyx
        have hxy : le x y = true := by
          rcases htotal x y with h | h
          · exact h
          · exact absurd h hyx
        refine List.pairwise_cons.mpr ⟨?_, hl⟩
        intro z hz
        rcases List.mem_cons.mp hz with rfl | hz
        · exact hxy
        · exact htrans x y z hxy (hy z hz)

theorem pySorted_perm {α : Type} (le : α → α → Bool) (l : List α) :
    (pySorted le l).Perm l := by
  suffices h : ∀ acc : List α,
      (l.foldl (fun acc x => stableInsert le x acc) acc).Perm (acc ++ l) by
    simpa [pySorted] using h []
  induction l with
  | nil => simp
  | cons x xs ih =>
      intro acc
      simp only [List.foldl_cons]
      refine (ih (stableInsert le x acc)).trans ?_
      have h1 : (stableInsert le x acc ++ xs).Perm ((x :: acc) ++ xs) :=
        (stableInsert_perm le x acc).append_right xs
      refine h1.trans ?_
      simp only [List.cons_append]
      exact List.perm_middle.symm

theorem pySorted_pairwise {α : Type} (le : α → α → Bool)
    (htrans : ∀ a b c, le a b = true → le b c = true → le a c = true)
    (htotal : ∀ a b, le a b = true ∨ le b a = true) (l : List α) :
    (pySorted le l).Pairwise (fun a b => le a b = true) := by
  suffices h : ∀ acc : List α, acc.Pairwise (fun a b => le a b = true) →
      (l.foldl (fun acc x => stableInsert le x acc) acc).Pairwise
        (fun a b => le a b = true) by
    exact h [] (by simp)
  induction l with
  | nil => exact fun acc h => h
  | cons x xs ih =>
      intro acc hacc
      simp only [List.foldl_cons]
      exact ih _ (stableInsert_pairwise le htrans htotal x acc hacc)

/-- Lexicographic `≤` on a triple of linearly ordered components, the model
of Python's tuple comparison for sort keys. -/
def lexLe3 {α β γ : Type} [LinearOrder α] [LinearOrder β] [LinearOrder γ]
    (x y : α × β × γ) : Bool :=
  decide (x.1 < y.1) ||
    (decide (x.1 = y.1) &&
      (decide (x.2.1 < y.2.1) ||
        (decide (x.2.1 = y.2.1) && decide (x.2.2 ≤ y.2.2))))

theorem lexLe3_trans {α β γ : Type} [LinearOrder α] [LinearOrder β] [LinearOrder γ]
    (x y z : α × β × γ) (h1 : lexLe3 x y = true) (h2 : lexLe3 y z = true) :
    lexLe3 x z = true := by
  simp only [lexLe3, Bool.or_eq_true, Bool.and_eq_true, decide_eq_true_eq] at h1 h2 ⊢
  rcases h1 with h1 | ⟨h1e, h1b⟩
  · rcases h2 with h2 | ⟨h2e, _⟩
    · exact Or.inl (lt_trans h1 h2)
    · exact Or.inl (h2e ▸ h1)
  · rcases h2 with h2 | ⟨h2e, h2b⟩
    · exact Or.inl (h1e ▸ h2)
    · refine Or.inr ⟨h1e.trans h2e, ?_⟩
      rcases h1b with h1b | ⟨h1be, h1bc⟩
      · rcases h2b with h2b | ⟨h2be, _⟩
        · exact Or.inl (lt_trans h1b h2b)
        · exact Or.inl (h2be ▸ h1b)
      · rcases h2b with h2b | ⟨h2be, h2bc⟩
        · exact Or.inl (h1be ▸ h2b)
        · exact Or.inr ⟨h1be.trans h2be, le_trans h1bc h2bc⟩

theorem lexLe3_total {α β γ : Type} [LinearOrder α] [LinearOrder β] [LinearOrder γ]
    (x y : α × β × γ) : lexLe3 x y = true ∨ lexLe3 y x = true := by
  simp only [lexLe3, Bool.or_eq_true, Bool.and_eq_true, decide_eq_true_eq]
  rcases lt_trichotomy x.1 y.1 with h | h | h
  · exact Or.inl (Or.inl h)
  · rcases lt_trichotomy x.2.1 y.2.1 with h' | h' | h'
    · exact Or.inl (Or.inr ⟨h, Or.inl h'⟩)
    · rcases le_total x.2.2 y.2.2 with h'' | h''
      · exact Or.inl (Or.inr ⟨h, Or.inr ⟨h', h''⟩⟩)
      · exact Or.inr (Or.inr ⟨h.symm, Or.inr ⟨h'.symm, h''⟩⟩)
    · exact Or.inr (Or.inr ⟨h.symm, Or.inl h'⟩)
  · exact Or.inr (Or.inl h)

/-! ## Chapter Aggregator -/

/-- `ChapterListing` from main.py (timestamps are opaque tokens). -/
structure ChapterListing where
  label : Option PyStr
  number : Option ℚ
  link : Option PyStr
  detected_at : Option Nat
deriving DecidableEq

/-- `build_chapter_signature`.  Python builds the strings `f"num:{number}"`
and `f"label:{label.strip().casefold()}"`; the two families never collide
and `repr` is injective on floats, so the signature is modeled as a tagged
value. -/
inductive ChapterSig : Type
  | num (q : ℚ)
  | lab (s : PyStr)
deriving DecidableEq

def buildChapterSignature (label : Option PyStr) (number : Option ℚ) :
    Option ChapterSig :=
  match number with
  | some q => some (.num q)
  | none =>
      match label with
      | some l => if l = [] then none else some (.lab ((pyStrip l).map pyCasefoldChar))
      | none => none

/-- The signature of a stored listing. -/
def listingSig (c : ChapterListing) : Option ChapterSig :=
  buildChapterSignature c.label c.number

/-- The sort key of `sort_chapter_entries`:
`(0 if number is not None else 1, -(number or 0.0), label or "")`. -/
def chapterSortKey (c : ChapterListing) : ℕ × ℚ × PyStr :=
  ((if c.number = none then 1 else 0), -(c.number.getD 0), c.label.getD [])

/-- The boolean comparison `sorted` uses on listings. -/
def chapterLe (x y : ChapterListing) : Bool :=
  lexLe3 (chapterSortKey x) (chapterSortKey y)

/-- `sort_chapter_entries` from main.py. -/
def sortChapterEntries (entries : List ChapterListing) : List ChapterListing :=
  if entries = [] then [] else pySorted chapterLe entries

/-- Candidate entry: the dict produced by `extract_candidate_entries`
(visible text, normalized text, tokens, optional resolved link, parent
context). -/
structure CandidateEntry where
  text : PyStr
  norm : PyStr
  tokens : List PyStr
  link : Option PyStr
  context : PyStr

/-- `entry["link"] or site_url` (an absent or empty link falls back to the
site URL). -/
def entryLink (e : CandidateEntry) (siteUrl : PyStr) : PyStr :=
  match e.link with
  | some l => if l = [] then siteUrl else l
  | none => siteUrl

/-- Loop state of `locate_series_hit`: the best hit
`(ratio, link, label, number)`, the collected listings, and the set of seen
signatures (kept in insertion order). -/
structure LocateState where
  best : Option (ℚ × PyStr × Option PyStr × Option ℚ)
  entries : List ChapterListing
  seen : List ChapterSig

/-- The chapter-listing phase of one `locate_series_hit` loop iteration:
record a listing for a truthy label whose signature is new. -/
def locateChapterUpdate (det : Option PyStr × Option ℚ) (link : PyStr)
    (detectedAt : Option Nat) (st : LocateState) : LocateState :=
  if pyTruthy det.1 = true then
    match buildChapterSignature det.1 det.2 with
    | some key =>
        if key ∈ st.seen then st
        else
          { st with
            entries := st.entries ++ [⟨det.1, det.2, some link, detectedAt⟩],
            seen := st.seen ++ [key] }
    | none => st
  else st

/-- The best-hit phase of one iteration:
`if best is None or ratio > best[0]`. -/
def locateBestUpdate (ratio : ℚ) (link : PyStr)
    (det : Option PyStr × Option ℚ) (st : LocateState) : LocateState :=
  match st.best with
  | none => { st with best := some (ratio, link, det.1, det.2) }
  | some b =>
      if ratio > b.1 then { st with best := some (ratio, link, det.1, det.2) }
      else st

/-- One iteration of `locate_series_hit`'s candidate loop. -/
def locateStep (normalizedTitle : PyStr) (titleTokens : List PyStr)
    (siteUrl : PyStr) (detectedAt : Option Nat) (st : LocateState)
    (e : CandidateEntry) : LocateState :=
  if isStructuralMatch normalizedTitle titleTokens e.norm e.tokens = true then
    locateBestUpdate (seqRatio normalizedTitle e.norm) (entryLink e siteUrl)
      (extractChapterDetails (some e.text) (some e.context))
      (locateChapterUpdate (extractChapterDetails (some e.text) (some e.context))
        (entryLink e siteUrl) detectedAt st)
  else st

/-- The post-loop processing of `locate_series_hit`: sort the collected
listings, insert the best hit's listing at the front when its signature is
absent, fall back to it when the list is empty, and truncate to 5. -/
def locateFinish (b : ℚ × PyStr × Option PyStr × Option ℚ)
    (entries : List ChapterListing) (detectedAt : Option Nat) :
    PyStr × Option PyStr × Option ℚ × List ChapterListing :=
  let ordered := sortChapterEntries entries
  let ordered2 :=
    if pyTruthy b.2.2.1 = true then
      match buildChapterSignature b.2.2.1 b.2.2.2 with
      | some sig =>
          if some sig ∈ ordered.map listingSig then ordered
          else ⟨b.2.2.1, b.2.2.2, some b.2.1, detectedAt⟩ :: ordered
      | none => ordered
    else ordered
  let ordered3 :=
    if ordered2 = [] then [⟨b.2.2.1, b.2.2.2, some b.2.1, detectedAt⟩]
    else ordered2
  (b.2.1, b.2.2.1, b.2.2.2, ordered3.take 5)

/-- `locate_series_hit` from main.py.  Returns
`(link, latest label, latest number, recent chapter listings)`. -/
def locateSeriesHit (candidates : List CandidateEntry) (title : PyStr)
    (siteUrl : PyStr) (detectedAt : Option Nat) :
    Option (PyStr × Option PyStr × Option ℚ × List ChapterListing) :=
  if normalizeText title = [] then none
  else
    match
      candidates.foldl
        (locateStep (normalizeText title) (pySplit (normalizeText title))
          siteUrl detectedAt)
        ⟨none, [], []⟩ with
    | ⟨none, _, _⟩ => none
    | ⟨some b, entries, _⟩ => some (locateFinish b entries detectedAt)

section AggregatorLemmas

theorem pyTruthy_some (l : PyStr) (h : l ≠ []) : pyTruthy (some l) = true := by
  unfold pyTruthy
  cases l with
  | nil => exact absurd rfl h
  | cons c cs => rfl

theorem tryDetect_some (os : Option PyStr) (r : Option PyStr × Option ℚ)
    (h : tryDetect os = some r) : ∃ l q, r = (some l, some q) ∧ l ≠ [] := by
  cases os with
  | none => exact absurd h (by simp [tryDetect])
  | some s =>
      simp only [tryDetect] at h
      by_cases he : s.isEmpty
      · rw [if_pos he] at h
        exact absurd h (by simp)
      · rw [if_neg he] at h
        by_cases ht : pyTruthy (detectChapterInSnippet s).1 = true
        · rw [if_pos ht] at h
          injection h with h'
          rcases detect_pair_cases s with hd | ⟨l, q, hd, hne⟩
          · rw [hd] at ht
            exact absurd ht (by simp [pyTruthy])
          · exact ⟨l, q, by rw [← h', hd], hne⟩
        · rw [if_neg ht] at h
          exact absurd h (by simp)

/-- Every `extract_chapter_details` result is either fully null or a
nonempty label with a parsed number. -/
theorem extract_details_cases (p s : Option PyStr) :
    extractChapterDetails p s = (none, none) ∨
      ∃ l q, extractChapterDetails p s = (some l, some q) ∧ l ≠ [] := by
  unfold extractChapterDetails
  cases hp : tryDetect p with
  | some r =>
      obtain ⟨l, q, rfl, hne⟩ := tryDetect_some p r hp
      exact Or.inr ⟨l, q, rfl, hne⟩
  | none =>
      cases hs : tryDetect s with
      | some r =>
          obtain ⟨l, q, rfl, hne⟩ := tryDetect_some s r hs
          exact Or.inr ⟨l, q, rfl, hne⟩
      | none => exact Or.inl rfl

/-- Invariant maintained by `locate_series_hit`'s candidate loop. -/
def LocateInv (st : LocateState) : Prop :=
  st.entries.map listingSig = st.seen.map some ∧
  st.seen.Nodup ∧
  (∀ c ∈ st.entries, ∃ q, c.number = some q) ∧
  (∀ b, st.best = some b → pyTruthy b.2.2.1 = true →
    ∃ k, buildChapterSignature b.2.2.1 b.2.2.2 = some k ∧ k ∈ st.seen)

theorem locateChapterUpdate_spec (det : Option PyStr × Option ℚ) (link : PyStr)
    (ts : Option Nat) (st : LocateState) (h : LocateInv st)
    (hdet : det = (none, none) ∨ ∃ l q, det = (some l, some q) ∧ l ≠ []) :
    LocateInv (locateChapterUpdate det link ts st) ∧
    (∀ k ∈ st.seen, k ∈ (locateChapterUpdate det link ts st).seen) ∧
    (locateChapterUpdate det link ts st).best = st.best ∧
    (pyTruthy det.1 = true →
      ∃ k, buildChapterSignature det.1 det.2 = some k ∧
        k ∈ (locateChapterUpdate det link ts st).seen) := by
  obtain ⟨h1, h2, h3, h4⟩ := h
  rcases hdet with rfl | ⟨l, q, rfl, hne⟩
  · have ht : pyTruthy (none, (none : Option ℚ)).1 = false := rfl
    unfold locateChapterUpdate
    rw [ht]
    exact ⟨⟨h1, h2, h3, h4⟩, fun k hk => hk, rfl, fun hcon => absurd hcon (by simp [ht])⟩
  · have ht : pyTruthy (some l) = true := pyTruthy_some l hne
    have hsig : buildChapterSignature (some l) (some q) = some (.num q) := rfl
    have hred : locateChapterUpdate (some l, some q) link ts st =
        (if ChapterSig.num q ∈ st.seen then st
         else
          { st with
            entries := st.entries ++ [⟨some l, some q, some link, ts⟩],
            seen := st.seen ++ [ChapterSig.num q] }) := by
      unfold locateChapterUpdate
      rw [show ((some l, some q) : Option PyStr × Option ℚ).1 = some l from rfl, ht,
        if_pos rfl]
      rfl
    rw [hred]
    by_cases hk : ChapterSig.num q ∈ st.seen
    · rw [if_pos hk]
      refine ⟨⟨h1, h2, h3, h4⟩, fun k hk' => hk', rfl, fun _ => ?_⟩
      exact ⟨ChapterSig.num q, rfl, hk⟩
    · rw [if_neg hk]
      refine ⟨⟨?_, ?_, ?_, ?_⟩, ?_, rfl, ?_⟩
      · show (st.entries ++ [(⟨some l, some q, some link, ts⟩ : ChapterListing)]).map
            listingSig = (st.seen ++ [ChapterSig.num q]).map some
        simp only [List.map_append, h1, List.map_cons, List.map_nil]
        rfl
      · show (st.seen ++ [ChapterSig.num q]).Nodup
        rw [List.nodup_append]
        refine ⟨h2, by simp, ?_⟩
        intro a ha hb
        simp only [List.mem_singleton] at hb
        subst hb
        exact hk ha
      · intro c hc
        rcases List.mem_append.mp hc with hc | hc
        · exact h3 c hc
        · simp only [List.mem_singleton] at hc
          subst hc
          exact ⟨q, rfl⟩
      · intro b hb htr
        obtain ⟨k, hk1, hk2⟩ := h4 b hb htr
        exact ⟨k, hk1, List.mem_append.mpr (Or.inl hk2)⟩
      · exact fun k hk' => List.mem_append.mpr (Or.inl hk')
      · exact fun _ => ⟨_, rfl, List.mem_append.mpr (Or.inr (by simp))⟩

theorem locateBestUpdate_inv (ratio : ℚ) (link : PyStr)
    (det : Option PyStr × Option ℚ) (st : LocateState) (h : LocateInv st)
    (hkey : pyTruthy det.1 = true →
      ∃ k, buildChapterSignature det.1 det.2 = some k ∧ k ∈ st.seen) :
    LocateInv (locateBestUpdate ratio link det st) := by
  obtain ⟨h1, h2, h3, h4⟩ := h
  unfold locateBestUpdate
  split
  · refine ⟨h1, h2, h3, ?_⟩
    intro b hb' htr
    have hb'' : some (ratio, link, det.1, det.2) = some b := hb'
    injection hb'' with hb''
    subst hb''
    exact hkey htr
  · split
    · refine ⟨h1, h2, h3, ?_⟩
      intro b hb' htr
      have hb'' : some (ratio, link, det.1, det.2) = some b := hb'
      injection hb'' with hb''
      subst hb''
      exact hkey htr
    · exact ⟨h1, h2, h3, h4⟩

theorem locateStep_inv (nt : PyStr) (tt : List PyStr) (su : PyStr)
    (ts : Option Nat) (st : LocateState) (e : CandidateEntry)
    (h : LocateInv st) : LocateInv (locateStep nt tt su ts st e) := by
  unfold locateStep
  split
  · have hdet := extract_details_cases (some e.text) (some e.context)
    obtain ⟨hinv', hsub', hbest', hkey'⟩ :=
      locateChapterUpdate_spec (extractChapterDetails (some e.text) (some e.context))
        (entryLink e su) ts st h hdet
    refine locateBestUpdate_inv _ _ _ _ hinv' hkey'
  · exact h

theorem locate_fold_inv (nt : PyStr) (tt : List PyStr) (su : PyStr)
    (ts : Option Nat) (l : List CandidateEntry) (st : LocateState)
    (h : LocateInv st) :
    LocateInv (l.foldl (locateStep nt tt su ts) st) := by
  induction l generalizing st with
  | nil => exact h
  | cons e es ih =>
      simp only [List.foldl_cons]
      exact ih _ (locateStep_inv nt tt su ts st e h)

/-- The ordering C2 claims for the returned chapter list: every numeric
listing precedes every label-only listing, numeric listings descend by
value, and label-only listings are in alphabetical label order. -/
def claimOrder (x y : ChapterListing) : Prop :=
  (x.number ≠ none ∧ y.number = none) ∨
  (∃ qx qy, x.number = some qx ∧ y.number = some qy ∧ qy < qx) ∨
  (x.number = none ∧ y.number = none ∧ x.label.getD [] ≤ y.label.getD [])

theorem chapterLe_trans (a b c : ChapterListing)
    (h1 : chapterLe a b = true) (h2 : chapterLe b c = true) :
    chapterLe a c = true :=
  lexLe3_trans _ _ _ h1 h2

theorem chapterLe_total (a b : ChapterListing) :
    chapterLe a b = true ∨ chapterLe b a = true :=
  lexLe3_total _ _

/-- Sorted all-numeric listings with pairwise-distinct signatures satisfy
the claimed ordering. -/
theorem sorted_entries_claimOrder (entries : List ChapterListing)
    (hnum : ∀ c ∈ entries, ∃ q, c.number = some q)
    (hnd : (entries.map listingSig).Nodup) :
    (sortChapterEntries entries).Pairwise claimOrder := by
  unfold sortChapterEntries
  split
  · simp
  · have hs := pySorted_pairwise chapterLe chapterLe_trans chapterLe_total entries
    have hperm := pySorted_perm chapterLe entries
    have hnum' : ∀ c ∈ pySorted chapterLe entries, ∃ q, c.number = some q :=
      fun c hc => hnum c (hperm.mem_iff.mp hc)
    have hnd' : ((pySorted chapterLe entries).map listingSig).Nodup :=
      ((hperm.map listingSig).nodup_iff).mpr hnd
    have hpw2 : (pySorted chapterLe entries).Pairwise
        (fun a b => listingSig a ≠ listingSig b) := by
      rw [List.Nodup, List.pairwise_map] at hnd'
      exact hnd'
    refine (hs.and hpw2).imp_of_mem ?_
    intro a b ha hb hab
    obtain ⟨hle, hne⟩ := hab
    obtain ⟨qa, hqa⟩ := hnum' a ha
    obtain ⟨qb, hqb⟩ := hnum' b hb
    refine Or.inr (Or.inl ⟨qa, qb, hqa, hqb, ?_⟩)
    have hsa : listingSig a = some (.num qa) := by
      unfold listingSig buildChapterSignature
      rw [hqa]
    have hsb : listingSig b = some (.num qb) := by
      unfold listingSig buildChapterSignature
      rw [hqb]
    have hqne : qa ≠ qb := by
      intro hcon
      rw [hsa, hsb, hcon] at hne
      exact hne rfl
    simp only [chapterLe, lexLe3, chapterSortKey, hqa, hqb, Bool.or_eq_true,
      Bool.and_eq_true, decide_eq_true_eq] at hle
    simp only [Option.getD_some, reduceCtorEq, if_false] at hle
    rcases hle with hle | ⟨_, hle⟩
    · exact absurd hle (lt_irrefl 0)
    · rcases hle with hle | ⟨hle, _⟩
      · exact neg_lt_neg_iff.mp hle
      · exact absurd (neg_injective hle) hqne

theorem locateFinish_spec (b : ℚ × PyStr × Option PyStr × Option ℚ)
    (oentries : List ChapterListing) (detectedAt : Option Nat)
    (i3 : ∀ c ∈ oentries, ∃ q, c.number = some q)
    (hnd : (oentries.map listingSig).Nodup)
    (hbest : pyTruthy b.2.2.1 = true →
      ∃ k, buildChapterSignature b.2.2.1 b.2.2.2 = some k ∧
        some k ∈ oentries.map listingSig) :
    (locateFinish b oentries detectedAt).2.2.2.length ≤ 5 ∧
      (locateFinish b oentries detectedAt).2.2.2.Pairwise claimOrder := by
  have hsorted := sorted_entries_claimOrder oentries i3 hnd
  unfold locateFinish
  refine ⟨List.length_take_le 5 _, ?_⟩
  by_cases htr : pyTruthy b.2.2.1 = true
  · obtain ⟨k, hk1, hk2⟩ := hbest htr
    have hmem : some k ∈ (sortChapterEntries oentries).map listingSig := by
      have hoe : oentries ≠ [] := by
        intro hcon
        rw [hcon] at hk2
        exact absurd hk2 (by simp)
      unfold sortChapterEntries
      rw [if_neg hoe]
      exact ((pySorted_perm chapterLe oentries).map listingSig).mem_iff.mpr hk2
    have hordne : sortChapterEntries oentries ≠ [] := by
      intro hcon
      rw [hcon] at hmem
      exact absurd hmem (by simp)
    simp only [htr, if_pos rfl, hk1, hmem, if_true, hordne, if_false]
    exact hsorted.sublist (List.take_sublist _ _)
  · simp only [htr, Bool.false_eq_true, if_false]
    by_cases hord : sortChapterEntries oentries = []
    · simp only [hord, if_pos rfl]
      simp
    · simp only [hord, if_false]
      exact hsorted.sublist (List.take_sublist _ _)

/-- C2: for every candidate list and title, the chapter list returned by
`locate_series_hit` (the `recent_chapters` payload) has length at most 5
and is ordered as claimed: numeric listings before label-only ones, numeric
listings strictly descending by value, label-only listings alphabetical. -/
theorem locate_series_hit_chapters (candidates : List CandidateEntry)
    (title siteUrl : PyStr) (detectedAt : Option Nat)
    (res : PyStr × Option PyStr × Option ℚ × List ChapterListing)
    (h : locateSeriesHit candidates title siteUrl detectedAt = some res) :
    res.2.2.2.length ≤ 5 ∧ res.2.2.2.Pairwise claimOrder := by
  unfold locateSeriesHit at h
  by_cases hnt : normalizeText title = []
  · rw [if_pos hnt] at h
    exact absurd h (by simp)
  rw [if_neg hnt] at h
  have hinv := locate_fold_inv (normalizeText title) (pySplit (normalizeText title))
    siteUrl detectedAt candidates ⟨none, [], []⟩ ⟨rfl, by simp, by simp, by simp⟩
  rcases hfe : candidates.foldl
      (locateStep (normalizeText title) (pySplit (normalizeText title))
        siteUrl detectedAt) ⟨none, [], []⟩ with ⟨obest, oentries, oseen⟩
  rw [hfe] at h hinv
  obtain ⟨i1, i2, i3, i4⟩ := hinv
  cases obest with
  | none => exact absurd h (by simp)
  | some b =>
      have hres : res = locateFinish b oentries detectedAt := by
        have h' : some (locateFinish b oentries detectedAt) = some res := h
        injection h' with h'
        exact h'.symm
      subst hres
      have hnd : (oentries.map listingSig).Nodup := by
        rw [show oentries = ({ best := some b, entries := oentries, seen := oseen } :
          LocateState).entries from rfl, i1]
        exact i2.map (fun a b hab => by injection hab)
      refine locateFinish_spec b oentries detectedAt i3 hnd ?_
      intro htr
      obtain ⟨k, hk1, hk2⟩ := i4 b rfl htr
      refine ⟨k, hk1, ?_⟩
      rw [show oentries = ({ best := some b, entries := oentries, seen := oseen } :
        LocateState).entries from rfl, i1]
      exact List.mem_map.mpr ⟨k, hk2, rfl⟩

def c2WitnessCand : CandidateEntry :=
  ⟨r"chapter 3".toList, r"naruto".toList, [r"naruto".toList], none, []⟩

def c2WitnessRes : PyStr × Option PyStr × Option ℚ × List ChapterListing :=
  (r"u".toList, some (r"3".toList), some 3,
    [⟨some (r"3".toList), some 3, some (r"u".toList), none⟩])

/-- Witness for C2 at a concrete input. -/
theorem locate_series_hit_chapters_witness :
    locateSeriesHit [c2WitnessCand] (r"naruto".toList) (r"u".toList) none =
      some c2WitnessRes ∧
    (c2WitnessRes.2.2.2.length ≤ 5 ∧ c2WitnessRes.2.2.2.Pairwise claimOrder) :=
  ⟨by decide,
    locate_series_hit_chapters [c2WitnessCand] (r"naruto".toList) (r"u".toList)
      none c2WitnessRes (by decide)⟩

end AggregatorLemmas

/-! ## Match serialization (`serialize_matches`) -/

/-- `SourceHit` from main.py. -/
structure SourceHit where
  site : PyStr
  link : Option PyStr
  latest_chapter : Option PyStr
  latest_chapter_number : Option ℚ
  recent_chapters : List ChapterListing
  series_url_template : Option PyStr
  chapter_url_template : Option PyStr
  site_host : Option PyStr
deriving DecidableEq

/-- `Match` from main.py: a title and its ordered source hits. -/
structure MatchResult where
  title : PyStr
  sources : List SourceHit
deriving DecidableEq

/-- `str.lower` (ASCII model; on ASCII it coincides with the casefold
model). -/
def pyLowerChar (c : Char) : Char := pyCasefoldChar c

/-- The sort key of `serialize_matches`:
`(-(latest_chapter_number if not None else -1.0), site.lower())`. -/
def serializeKey (hit : SourceHit) : ℚ × PyStr :=
  (-(hit.latest_chapter_number.getD (-1)), hit.site.map pyLowerChar)

/-- Lexicographic `≤` on a pair, the model of Python's 2-tuple key
comparison. -/
def lexLe2 {α β : Type} [LinearOrder α] [LinearOrder β] (x y : α × β) : Bool :=
  decide (x.1 < y.1) || (decide (x.1 = y.1) && decide (x.2 ≤ y.2))

theorem lexLe2_trans {α β : Type} [LinearOrder α] [LinearOrder β]
    (x y z : α × β) (h1 : lexLe2 x y = true) (h2 : lexLe2 y z = true) :
    lexLe2 x z = true := by
  simp only [lexLe2, Bool.or_eq_true, Bool.and_eq_true, decide_eq_true_eq] at h1 h2 ⊢
  rcases h1 with h1 | ⟨h1e, h1b⟩
  · rcases h2 with h2 | ⟨h2e, _⟩
    · exact Or.inl (lt_trans h1 h2)
    · exact Or.inl (h2e ▸ h1)
  · rcases h2 with h2 | ⟨h2e, h2b⟩
    · exact Or.inl (h1e ▸ h2)
    · exact Or.inr ⟨h1e.trans h2e, le_trans h1b h2b⟩

theorem lexLe2_total {α β : Type} [LinearOrder α] [LinearOrder β]
    (x y : α × β) : lexLe2 x y = true ∨ lexLe2 y x = true := by
  simp only [lexLe2, Bool.or_eq_true, Bool.and_eq_true, decide_eq_true_eq]
  rcases lt_trichotomy x.1 y.1 with h | h | h
  · exact Or.inl (Or.inl h)
  · rcases le_total x.2 y.2 with h' | h'
    · exact Or.inl (Or.inr ⟨h, h'⟩)
    · exact Or.inr (Or.inr ⟨h.symm, h'⟩)
  · exact Or.inr (Or.inl h)

/-- The boolean comparison `sorted` uses on source hits. -/
def hitLe (x y : SourceHit) : Bool := lexLe2 (serializeKey x) (serializeKey y)

/-- `serialize_matches` from main.py.  The match index
`Dict[str, Dict[str, SourceHit]]` is modeled as an insertion-ordered
association list; `hits.values()` keeps insertion order. -/
def serializeMatches (matchIndex : List (PyStr × List (PyStr × SourceHit))) :
    List MatchResult :=
  matchIndex.map fun ti => ⟨ti.1, pySorted hitLe (ti.2.map Prod.snd)⟩

/-- A null-number hit used by the C6 counterexample. -/
def c6HitNull : SourceHit :=
  ⟨r"b".toList, none, none, none, [], none, none, none⟩

/-- A negative-number hit used by the C6 counterexample. -/
def c6HitNeg : SourceHit :=
  ⟨r"a".toList, none, none, some (-2), [], none, none, none⟩

/-- The match index used by the C6 counterexample. -/
def c6Index : List (PyStr × List (PyStr × SourceHit)) :=
  [(r"t".toList, [(r"a".toList, c6HitNeg), (r"b".toList, c6HitNull)])]

/-- C6 counterexample: `serialize_matches` does NOT always place hits with a
null chapter number after every hit with a non-null number — null is encoded
as the sentinel key `-1.0`, so the hit with number `-2` sorts after the
null-number hit. -/
theorem serialize_matches_counterexample :
    serializeMatches c6Index = [⟨r"t".toList, [c6HitNull, c6HitNeg]⟩] ∧
    c6HitNull.latest_chapter_number = none ∧
    c6HitNeg.latest_chapter_number = some (-2) := by
  refine ⟨by decide, rfl, rfl⟩

/-- The ordering C6 claims between consecutive source hits. -/
def c6Order (x y : SourceHit) : Prop :=
  (x.latest_chapter_number ≠ none ∧ y.latest_chapter_number = none) ∨
  (∃ qx qy, x.latest_chapter_number = some qx ∧ y.latest_chapter_number = some qy ∧
    (qy < qx ∨ (qx = qy ∧ x.site.map pyLowerChar ≤ y.site.map pyLowerChar))) ∨
  (x.latest_chapter_number = none ∧ y.latest_chapter_number = none ∧
    x.site.map pyLowerChar ≤ y.site.map pyLowerChar)

/-- C6 (amended): for every match index all of whose non-null latest chapter
numbers are nonnegative (as every detector-produced chapter number is),
`serialize_matches` orders each match's hits by descending chapter number,
ties broken by lowercased site label ascending, with null-number hits after
all non-null ones. -/
theorem serialize_matches_sorted
    (matchIndex : List (PyStr × List (PyStr × SourceHit)))
    (hpos : ∀ ti ∈ matchIndex, ∀ p ∈ ti.2, ∀ q,
      p.2.latest_chapter_number = some q → 0 ≤ q) :
    ∀ m ∈ serializeMatches matchIndex, m.sources.Pairwise c6Order := by
  intro m hm
  obtain ⟨ti, hti, rfl⟩ := List.mem_map.mp hm
  have hsort := pySorted_pairwise hitLe
    (fun a b c => lexLe2_trans _ _ _) (fun a b => lexLe2_total _ _)
    (ti.2.map Prod.snd)
  have hperm := pySorted_perm hitLe (ti.2.map Prod.snd)
  have hmemnn : ∀ x ∈ pySorted hitLe (ti.2.map Prod.snd), ∀ q,
      x.latest_chapter_number = some q → 0 ≤ q := by
    intro x hx q hq
    have hx' := hperm.mem_iff.mp hx
    obtain ⟨p, hp, rfl⟩ := List.mem_map.mp hx'
    exact hpos ti hti p hp q hq
  refine hsort.imp_of_mem ?_
  intro a b ha hb hab
  simp only [hitLe, lexLe2, serializeKey, Bool.or_eq_true, Bool.and_eq_true,
    decide_eq_true_eq] at hab
  cases hqa : a.latest_chapter_number with
  | none =>
      cases hqb : b.latest_chapter_number with
      | none =>
          refine Or.inr (Or.inr ⟨hqa, hqb, ?_⟩)
          rw [hqa, hqb] at hab
          simp only [Option.getD_none] at hab
          rcases hab with hab | ⟨_, hab⟩
          · exact absurd hab (lt_irrefl _)
          · exact hab
      | some qb =>
          exfalso
          have hqbpos : 0 ≤ qb := hmemnn b hb qb hqb
          rw [hqa, hqb] at hab
          simp only [Option.getD_none, Option.getD_some] at hab
          rcases hab with hab | ⟨hab, _⟩
          · have : -qb ≤ 0 := neg_nonpos.mpr hqbpos
            have h1 : (-1 : ℚ) < 0 := by norm_num
            nlinarith
          · nlinarith [hqbpos]
  | some qa =>
      cases hqb : b.latest_chapter_number with
      | none => exact Or.inl ⟨by simp [hqa], hqb⟩
      | some qb =>
          refine Or.inr (Or.inl ⟨qa, qb, hqa, hqb, ?_⟩)
          rw [hqa, hqb] at hab
          simp only [Option.getD_some] at hab
          rcases hab with hab | ⟨hab, hab2⟩
          · exact Or.inl (neg_lt_neg_iff.mp hab)
          · exact Or.inr ⟨neg_injective hab, hab2⟩

/-- A positive-number hit used by the C6 witness. -/
def c6HitPos : SourceHit :=
  ⟨r"a".toList, none, none, some 2, [], none, none, none⟩

/-- The match index used by the C6 witness. -/
def c6WitnessIndex : List (PyStr × List (PyStr × SourceHit)) :=
  [(r"t".toList, [(r"a".toList, c6HitPos), (r"b".toList, c6HitNull)])]

/-- Witness for the amended C6 at a concrete input. -/
theorem serialize_matches_sorted_witness :
    (∀ ti ∈ c6WitnessIndex, ∀ p ∈ ti.2, ∀ q,
      p.2.latest_chapter_number = some q → 0 ≤ q) ∧
    (∀ m ∈ serializeMatches c6WitnessIndex, m.sources.Pairwise c6Order) :=
  ⟨by decide, serialize_matches_sorted c6WitnessIndex (by decide)⟩

/-! ## URL machinery

Models of the `urllib.parse` functions used by `build_page_urls`,
`apply_query_pagination` and `normalize_host`:
`urlparse`/`urlsplit`, `parse_qs`, `urlencode(..., doseq=True)`,
`quote_plus`/`unquote_plus`, `urlunparse`/`urlunsplit`.

Caveats (documented per function): the CPython 3.11 control flow is modeled;
the netloc NFKC confusable check (`_checknetloc`), which can only raise for
non-ASCII netlocs, is not modeled; the bracketed-host validation
(`_check_bracketed_host`) is approximated — the claims only involve
bracket-free ASCII URLs, where neither branch is reachable. -/

deriving instance DecidableEq for Except

def isAsciiAlpha (c : Char) : Bool := isAsciiLower c || isAsciiUpper c

/-- `urllib.parse.scheme_chars`: letters, digits, `+`, `-`, `.`. -/
def isSchemeChar (c : Char) : Bool :=
  isAsciiAlpha c || isAsciiDigit c || c == '+' || c == '-' || c == '.'

/-- Result of `urlsplit`. -/
structure SplitResult where
  scheme : PyStr
  netloc : PyStr
  path : PyStr
  query : PyStr
  fragment : PyStr
deriving DecidableEq

/-- Result of `urlparse` (`urlsplit` plus path parameters). -/
structure ParseResult where
  scheme : PyStr
  netloc : PyStr
  path : PyStr
  params : PyStr
  query : PyStr
  fragment : PyStr
deriving DecidableEq

/-- `_UNSAFE_URL_BYTES_TO_REMOVE`: tab, CR and LF are stripped first. -/
def removeUnsafe (url : PyStr) : PyStr :=
  url.filter fun c => !(c == '\t' || c == '\r' || c == '\n')

/-- Scheme detection of `urlsplit`: a leading ASCII letter followed by
scheme characters up to the first `:`. The scheme is lowercased. -/
def splitScheme (url : PyStr) : PyStr × PyStr :=
  match url.findIdx? (fun c => c == ':') with
  | none => ([], url)
  | some i =>
      if 0 < i ∧ isAsciiAlpha (url.getD 0 ' ') = true ∧
          (url.take i).all isSchemeChar = true then
        ((url.take i).map pyLowerChar, url.drop (i + 1))
      else ([], url)

/-- `_splitnetloc(url, 2)`: the netloc runs to the first `/`, `?` or `#`. -/
def splitNetloc (url : PyStr) : PyStr × PyStr :=
  ((url.drop 2).takeWhile fun c => !(c == '/' || c == '?' || c == '#'),
    (url.drop 2).dropWhile fun c => !(c == '/' || c == '?' || c == '#'))

def isHexDigitChar (c : Char) : Bool :=
  isAsciiDigit c || ('a' ≤ c && c ≤ 'f') || ('A' ≤ c && c ≤ 'F')

/-- Approximation of `_check_bracketed_host` (valid `v`-future literal or an
`ipaddress.ip_address`-acceptable IPv6 shape).  Unreachable for the
bracket-free URLs all claims are about. -/
def bracketHostOk (h : PyStr) : Bool :=
  match h with
  | 'v' :: rest => (rest.takeWhile isHexDigitChar ≠ []) &&
      (rest.dropWhile isHexDigitChar).length ≥ 2 &&
      (rest.dropWhile isHexDigitChar).headD ' ' == '.'
  | _ => h.contains ':' && h.all fun c => isHexDigitChar c || c == ':' || c == '.'

/-- Split off the fragment (first `#`) and then the query (first `?`). -/
def splitFragQuery (scheme netloc url : PyStr) : SplitResult :=
  let url4 := if url.contains '#' then url.takeWhile (fun c => !(c == '#')) else url
  let frag := if url.contains '#' then (url.dropWhile (fun c => !(c == '#'))).drop 1
    else []
  let path := if url4.contains '?' then url4.takeWhile (fun c => !(c == '?')) else url4
  let query := if url4.contains '?' then (url4.dropWhile (fun c => !(c == '?'))).drop 1
    else []
  ⟨scheme, netloc, path, query, frag⟩

/-- `urllib.parse.urlsplit` (CPython 3.11 control flow; `ValueError` is
`Except.error`). -/
def pyUrlsplitE (url0 : PyStr) : Except Unit SplitResult :=
  let url1 := removeUnsafe url0
  let sp := splitScheme url1
  if sp.2.take 2 = ['/', '/'] then
    let nl := splitNetloc sp.2
    if (nl.1.contains '[' && !nl.1.contains ']') ||
        (nl.1.contains ']' && !nl.1.contains '[') then
      .error ()
    else if nl.1.contains '[' && nl.1.contains ']' then
      if bracketHostOk (((nl.1.dropWhile fun c => !(c == '[')).drop 1).takeWhile
          fun c => !(c == ']')) then
        .ok (splitFragQuery sp.1 nl.1 nl.2)
      else .error ()
    else .ok (splitFragQuery sp.1 nl.1 nl.2)
  else .ok (splitFragQuery sp.1 [] sp.2)

/-- Python `s.rfind(c)` as an optional index. -/
def pyRfind (c : Char) (s : PyStr) : Option Nat :=
  (s.reverse.findIdx? (fun x => x == c)).map fun k => s.length - 1 - k

/-- Python `s.find(c, start)` as an optional index. -/
def pyFindFrom (c : Char) (s : PyStr) (start : Nat) : Option Nat :=
  ((s.drop start).findIdx? (fun x => x == c)).map (· + start)

/-- `_splitparams`: split path parameters after the last `/`. -/
def splitParams (url : PyStr) : PyStr × PyStr :=
  let start := if url.contains '/' then (pyRfind '/' url).getD 0 else 0
  match pyFindFrom ';' url start with
  | none => (url, [])
  | some i => (url.take i, url.drop (i + 1))

/-- `urllib.parse.urlparse`. -/
def pyUrlparseE (url : PyStr) : Except Unit ParseResult :=
  (pyUrlsplitE url).map fun sr =>
    ⟨sr.scheme, sr.netloc, (splitParams sr.path).1, (splitParams sr.path).2,
      sr.query, sr.fragment⟩

/-- Hex digit value. -/
def hexVal (c : Char) : Option Nat :=
  if isAsciiDigit c then some (c.toNat - 48)
  else if 'a' ≤ c ∧ c ≤ 'f' then some (c.toNat - 87)
  else if 'A' ≤ c ∧ c ≤ 'F' then some (c.toNat - 55)
  else none

/-- `urllib.parse.unquote`: decode `%XX` escapes.  Each escaped byte becomes
one code point; multi-byte UTF-8 sequences are not recombined (irrelevant to
the claims: only re-encoded or ASCII values flow through). -/
def pyUnquote : PyStr → PyStr
  | [] => []
  | '%' :: a :: b :: rest =>
      match hexVal a, hexVal b with
      | some ha, some hb => Char.ofNat (16 * ha + hb) :: pyUnquote rest
      | _, _ => '%' :: pyUnquote (a :: b :: rest)
  | c :: rest => c :: pyUnquote rest

/-- `unquote_plus`: `+` means space, then percent-decoding. -/
def pyUnquotePlus (s : PyStr) : PyStr :=
  pyUnquote (s.map fun c => if c = '+' then ' ' else c)

/-- `parse_qsl(qs, keep_blank_values=True)`: split on `&`, drop empty
fields, split each field at the first `=` (a field without `=` keeps a blank
value), unquote names and values. -/
def parseQsl (qs : PyStr) : List (PyStr × PyStr) :=
  (qs.splitOn '&').filterMap fun nv =>
    if nv = [] then none
    else if nv.contains '=' then
      some (pyUnquotePlus (nv.takeWhile fun c => !(c == '=')),
        pyUnquotePlus ((nv.dropWhile fun c => !(c == '=')).drop 1))
    else some (pyUnquotePlus nv, [])

/-- Append a value to a key of the insertion-ordered dict (`parse_qs`'s
accumulation). -/
def dictAppend (d : List (PyStr × List PyStr)) (k : PyStr) (v : PyStr) :
    List (PyStr × List PyStr) :=
  match d with
  | [] => [(k, [v])]
  | (k', vs) :: rest =>
      if k' = k then (k', vs ++ [v]) :: rest else (k', vs) :: dictAppend rest k v

/-- `parse_qs(qs, keep_blank_values=True)` as an insertion-ordered dict. -/
def parseQs (qs : PyStr) : List (PyStr × List PyStr) :=
  (parseQsl qs).foldl (fun d p => dictAppend d p.1 p.2) []

/-- `query[parameter] = value`: Python dict assignment keeps the position of
an existing key and appends a new key at the end. -/
def dictSet (d : List (PyStr × List PyStr)) (k : PyStr) (v : List PyStr) :
    List (PyStr × List PyStr) :=
  match d with
  | [] => [(k, v)]
  | (k', vs) :: rest =>
      if k' = k then (k', v) :: rest else (k', vs) :: dictSet rest k v

/-- The characters `quote` never escapes (letters, digits, `_.-~`);
`quote_plus` is called with an empty extra-safe set. -/
def isAlwaysSafe (c : Char) : Bool :=
  isAsciiAlpha c || isAsciiDigit c || c == '_' || c == '.' || c == '-' || c == '~'

def hexDigitUpper (n : Nat) : Char :=
  if n < 10 then Char.ofNat (48 + n) else Char.ofNat (55 + n)

/-- UTF-8 bytes of one code point. -/
def utf8Bytes (c : Char) : List Nat :=
  let n := c.toNat
  if n < 0x80 then [n]
  else if n < 0x800 then [0xC0 + n / 0x40, 0x80 + n % 0x40]
  else if n < 0x10000 then
    [0xE0 + n / 0x1000, 0x80 + (n / 0x40) % 0x40, 0x80 + n % 0x40]
  else
    [0xF0 + n / 0x40000, 0x80 + (n / 0x1000) % 0x40, 0x80 + (n / 0x40) % 0x40,
      0x80 + n % 0x40]

def percentByte (b : Nat) : PyStr := ['%', hexDigitUpper (b / 16), hexDigitUpper (b % 16)]

/-- `quote_plus`: space becomes `+`, safe characters stay, everything else is
percent-encoded bytewise (uppercase hex). -/
def pyQuotePlus (s : PyStr) : PyStr :=
  (s.map fun c =>
    if c = ' ' then ['+']
    else if isAlwaysSafe c then [c]
    else ((utf8Bytes c).map percentByte).flatten).flatten

/-- `'&'.join(l)`. -/
def joinAmp : List PyStr → PyStr
  | [] => []
  | [s] => s
  | s :: rest => s ++ '&' :: joinAmp rest

/-- `urlencode(query, doseq=True)` for a dict of string lists: one
`key=value` segment per list element, keys and values quoted, joined with
`&`. -/
def urlencodeSeq (d : List (PyStr × List PyStr)) : PyStr :=
  joinAmp ((d.map fun kv => kv.2.map fun v =>
    pyQuotePlus kv.1 ++ '=' :: pyQuotePlus v).flatten)

/-- First step of `urlunsplit`: re-attach the netloc. -/
def urlAddNetloc (netloc url : PyStr) : PyStr :=
  if netloc ≠ [] ∨ (url ≠ [] ∧ url.take 2 = ['/', '/']) then
    '/' :: '/' :: (netloc ++ (if url ≠ [] ∧ url.take 1 ≠ ['/'] then '/' :: url else url))
  else url

/-- Second step of `urlunsplit`: `scheme + ':' + url` when the scheme is
truthy. -/
def urlAddScheme (scheme url : PyStr) : PyStr :=
  if scheme ≠ [] then scheme ++ ':' :: url else url

/-- Third step of `urlunsplit`: `url + '?' + query` when the query is
truthy. -/
def urlAddQuery (url query : PyStr) : PyStr :=
  if query ≠ [] then url ++ '?' :: query else url

/-- Last step of `urlunsplit`: `url + '#' + fragment` when the fragment is
truthy. -/
def urlAddFragment (url fragment : PyStr) : PyStr :=
  if fragment ≠ [] then url ++ '#' :: fragment else url

/-- `urllib.parse.urlunsplit`. -/
def pyUrlunsplit (scheme netloc url query fragment : PyStr) : PyStr :=
  urlAddFragment (urlAddQuery (urlAddScheme scheme (urlAddNetloc netloc url)) query)
    fragment

/-- `urllib.parse.urlunparse`. -/
def pyUrlunparse (p : ParseResult) : PyStr :=
  pyUrlunsplit p.scheme p.netloc
    (if p.params ≠ [] then p.path ++ ';' :: p.params else p.path) p.query p.fragment

/-- Python `str(n)` for a natural number: base-10 digits via div/mod
(`fuel` is structural and `n + 1` always suffices). -/
def natStrAux : Nat → Nat → PyStr
  | 0, _ => []
  | fuel + 1, n =>
      if n = 0 then [] else natStrAux fuel (n / 10) ++ [Char.ofNat (48 + n % 10)]

def pyNatStr (n : Nat) : PyStr := if n = 0 then ['0'] else natStrAux (n + 1) n

/-- Python `str(i)` for an int. -/
def pyIntStr (i : Int) : PyStr :=
  if i < 0 then '-' :: pyNatStr i.natAbs else pyNatStr i.natAbs

/-- The pure part of `apply_query_pagination` after a successful parse. -/
def applyQueryPure (parsed : ParseResult) (parameter : PyStr) (pageNumber : Int) :
    PyStr :=
  pyUrlunparse
    { parsed with
      query := urlencodeSeq (dictSet (parseQs parsed.query) parameter
        [pyIntStr pageNumber]) }

/-- `apply_query_pagination(base_url, parameter, page_number)` from main.py:
parse the base URL, force the query parameter to the page number (other
parameters preserved), re-serialize.  A `ValueError` from `urlparse`
propagates. -/
def applyQueryPagination (baseUrl : PyStr) (parameter : PyStr)
    (pageNumber : Int) : Except Unit PyStr :=
  (pyUrlparseE baseUrl).map fun parsed => applyQueryPure parsed parameter pageNumber

/-! ## Page URL Builder (`build_page_urls`) -/

inductive PaginationStrategy : Type
  | query
  | path
deriving DecidableEq

/-- `PaginationConfig` from main.py, with pydantic defaults
`strategy="query"`, `parameter=None`, `template=None`, `start=1`,
`pages=1`. -/
structure PaginationConfig where
  strategy : PaginationStrategy
  parameter : Option PyStr
  template : Option PyStr
  start : Int
  pages : Int
deriving DecidableEq

/-- `site.pagination` as `build_page_urls` sees it: absent (`None`/falsy),
an already-parsed `PaginationConfig`, a dict for which
`PaginationConfig(**config_data)` succeeds, a dict raising
`ValidationError`, or a value of an unsupported type. -/
inductive PaginationData : Type
  | none
  | config (c : PaginationConfig)
  | dictParsed (c : PaginationConfig)
  | dictInvalid
  | otherType
deriving DecidableEq

/-- The literal `{page}` placeholder. -/
def pagePlaceholder : PyStr := ['\x7b', 'p', 'a', 'g', 'e', '\x7d']

/-- `"{page}" in template`. -/
def containsPlaceholder (t : PyStr) : Bool := decide (pagePlaceholder <:+: t)

/-- Python `template.replace(pattern, repl)`: replace all non-overlapping
occurrences left to right.  The empty-pattern case (never reached: the
call site's pattern is the placeholder literal) is modeled as identity. -/
def replaceAll (p r : PyStr) : PyStr → PyStr
  | [] => []
  | c :: cs =>
      if p ≠ [] ∧ p.isPrefixOf (c :: cs) = true then
        r ++ replaceAll p r ((c :: cs).drop p.length)
      else c :: replaceAll p r cs
termination_by s => s.length
decreasing_by
  · rename_i h
    simp only [List.length_drop, List.length_cons]
    have : p.length ≥ 1 := by
      cases p with
      | nil => exact absurd rfl h.1
      | cons a as => simp
    omega
  · simp

/-- `max(1, config.pages or 1)` as a natural count. -/
def effPages (c : PaginationConfig) : Nat :=
  (max 1 (if c.pages = 0 then 1 else c.pages)).toNat

/-- `config.start or 1`. -/
def effStart (c : PaginationConfig) : Int := if c.start = 0 then 1 else c.start

/-- The URL built for one page number (the body of `build_page_urls`' loop):
query strategy with a truthy parameter, path strategy with a truthy template
containing the placeholder, else the bare base URL. -/
def pageUrlFor (c : PaginationConfig) (baseUrl : PyStr) (pageNumber : Int) :
    Except Unit PyStr :=
  if c.strategy = .query ∧ pyTruthy c.parameter = true then
    applyQueryPagination baseUrl (c.parameter.getD []) pageNumber
  else if c.strategy = .path ∧ pyTruthy c.template = true ∧
      containsPlaceholder (c.template.getD []) = true then
    .ok (replaceAll pagePlaceholder (pyIntStr pageNumber) (c.template.getD []))
  else
    .ok baseUrl

/-- The loop of `build_page_urls` for a successfully parsed config. -/
def buildPageUrlsCore (c : PaginationConfig) (baseUrl : PyStr) :
    Except Unit (List PyStr) := do
  let urls ← (List.range (effPages c)).mapM fun off =>
    pageUrlFor c baseUrl (effStart c + Int.ofNat off)
  pure (if urls = [] then [baseUrl] else urls)

/-- `build_page_urls(site)` from main.py (the site's URL string and
pagination value are the two inputs it reads).  `Except.error` is an
uncaught exception; all falsy/malformed configs return `[base_url]`s
without raising. -/
def buildPageUrls (pag : PaginationData) (baseUrl : PyStr) :
    Except Unit (List PyStr) :=
  match pag with
  | .none => .ok [baseUrl]
  | .dictInvalid => .ok [baseUrl]
  | .otherType => .ok [baseUrl]
  | .config c => buildPageUrlsCore c baseUrl
  | .dictParsed c => buildPageUrlsCore c baseUrl

/-- C1's notion of a malformed/incomplete pagination config. -/
def MalformedPagination (pag : PaginationData) : Prop :=
  pag = .dictInvalid ∨
  ∃ c, (pag = .config c ∨ pag = .dictParsed c) ∧
    ((c.strategy = .query ∧ pyTruthy c.parameter = false) ∨
      (c.strategy = .path ∧ (pyTruthy c.template = false ∨
        containsPlaceholder (c.template.getD []) = false)))

/-- The config of the C1 counterexample: strategy `query`, no parameter,
`pages = 2`. -/
def c1Config : PaginationConfig := ⟨.query, none, none, 1, 2⟩

def c1Base : PyStr := r"http://example.com/".toList

/-- C1 counterexample: a malformed config (strategy `query` with no
parameter) whose `pages` is 2 yields TWO copies of the base URL, not a
one-element list. -/
theorem build_page_urls_counterexample :
    MalformedPagination (.config c1Config) ∧
    buildPageUrls (.config c1Config) c1Base = .ok [c1Base, c1Base] ∧
    (Except.ok [c1Base, c1Base] : Except Unit (List PyStr)) ≠ .ok [c1Base] := by
  refine ⟨Or.inr ⟨c1Config, Or.inl rfl, Or.inl ⟨rfl, rfl⟩⟩, by decide, by decide⟩

theorem mapM_ok_of_const {b : PyStr} (l : List Nat) (f : Nat → Except Unit PyStr)
    (hf : ∀ x ∈ l, f x = .ok b) : l.mapM f = .ok (List.replicate l.length b) := by
  induction l with
  | nil => rfl
  | cons x xs ih =>
      rw [List.mapM_cons, hf x (by simp)]
      rw [ih (fun y hy => hf y (by simp [hy]))]
      rfl

theorem effPages_pos (c : PaginationConfig) : 1 ≤ effPages c := by
  unfold effPages
  omega

/-- C1 (amended): for every site whose pagination config is malformed or
incomplete, `build_page_urls` returns — without raising — a list of copies
of the base URL: exactly one copy when the config dict fails to parse, and
exactly `effPages c` = `max(1, pages or 1)` copies when a parsed config
`c`'s strategy is malformed. -/
theorem build_page_urls_malformed (pag : PaginationData) (base : PyStr)
    (h : MalformedPagination pag) :
    ∃ k, 1 ≤ k ∧ buildPageUrls pag base = .ok (List.replicate k base) ∧
      (pag = .dictInvalid → k = 1) ∧
      (∀ c, pag = .config c ∨ pag = .dictParsed c → k = effPages c) := by
  rcases h with rfl | ⟨c, hc, hbad⟩
  · refine ⟨1, le_refl 1, rfl, fun _ => rfl, fun c hc => ?_⟩
    rcases hc with hc | hc <;> cases hc
  · have hpage : ∀ off ∈ List.range (effPages c),
        pageUrlFor c base (effStart c + Int.ofNat off) = .ok base := by
      intro off _
      unfold pageUrlFor
      rcases hbad with ⟨hq, hp⟩ | ⟨hq, hp⟩
      · rw [if_neg (fun hcon => by rw [hp] at hcon; exact absurd hcon.2 (by simp))]
        rw [if_neg (fun hcon => by rw [hq] at hcon; exact absurd hcon.1 (by simp))]
      · rw [if_neg (fun hcon => by rw [hq] at hcon; exact absurd hcon.1 (by simp))]
        refine if_neg (fun hcon => ?_)
        rcases hp with hp | hp
        · rw [hp] at hcon
          exact absurd hcon.2.1 (by simp)
        · rw [hp] at hcon
          exact absurd hcon.2.2 (by simp)
    have hne : List.replicate (effPages c) base ≠ [] := by
      simp only [ne_eq, List.replicate_eq_nil_iff]
      have := effPages_pos c
      omega
    have hcore : buildPageUrlsCore c base =
        .ok (List.replicate (effPages c) base) := by
      have hstep : buildPageUrlsCore c base =
          pure (if List.replicate (effPages c) base = [] then [base]
            else List.replicate (effPages c) base) := by
        unfold buildPageUrlsCore
        rw [mapM_ok_of_const _ _ hpage, List.length_range]
        rfl
      rw [hstep, if_neg hne]
      rfl
    rcases hc with rfl | rfl
    · refine ⟨effPages c, effPages_pos c, hcore, by simp, fun c' hc' => ?_⟩
      rcases hc' with hc' | hc'
      · injection hc' with h'
        rw [h']
      · cases hc'
    · refine ⟨effPages c, effPages_pos c, hcore, by simp, fun c' hc' => ?_⟩
      rcases hc' with hc' | hc'
      · cases hc'
      · injection hc' with h'
        rw [h']

section PageUrlLemmas

theorem digitsVal_append (xs : PyStr) (d : Char) :
    digitsVal (xs ++ [d]) = 10 * digitsVal xs + (d.toNat - 48) := by
  unfold digitsVal
  rw [List.foldl_append]
  rfl

theorem digitChar_toNat (m : Nat) (hm : m < 10) :
    (Char.ofNat (48 + m)).toNat = 48 + m := by
  interval_cases m <;> decide

theorem natStrAux_digitsVal :
    ∀ fuel n, n < fuel → digitsVal (natStrAux fuel n) = n := by
  intro fuel
  induction fuel with
  | zero => intro n h; omega
  | succ fuel ih =>
      intro n h
      unfold natStrAux
      by_cases hn : n = 0
      · subst hn
        simp [digitsVal]
      · rw [if_neg hn, digitsVal_append]
        have h1 : n / 10 < fuel := by
          have h2 : n / 10 < n := Nat.div_lt_self (Nat.pos_of_ne_zero hn) (by norm_num)
          omega
        rw [ih _ h1]
        have hm : n % 10 < 10 := Nat.mod_lt _ (by norm_num)
        rw [digitChar_toNat _ hm]
        omega

theorem pyNatStr_digitsVal (n : Nat) : digitsVal (pyNatStr n) = n := by
  unfold pyNatStr
  by_cases hn : n = 0
  · subst hn
    decide
  · rw [if_neg hn]
    exact natStrAux_digitsVal (n + 1) n (Nat.lt_succ_self n)

theorem pyNatStr_inj : Function.Injective pyNatStr := by
  intro a b h
  have := congrArg digitsVal h
  rwa [pyNatStr_digitsVal, pyNatStr_digitsVal] at this

theorem natStrAux_digits :
    ∀ fuel n, ∀ c ∈ natStrAux fuel n, isAsciiDigit c = true := by
  intro fuel
  induction fuel with
  | zero => intro n c hc; simp [natStrAux] at hc
  | succ fuel ih =>
      intro n c hc
      unfold natStrAux at hc
      by_cases hn : n = 0
      · rw [if_pos hn] at hc
        simp at hc
      · rw [if_neg hn] at hc
        rcases List.mem_append.mp hc with hc | hc
        · exact ih _ c hc
        · simp only [List.mem_singleton] at hc
          subst hc
          have hm : n % 10 < 10 := Nat.mod_lt _ (by norm_num)
          simp only [isAsciiDigit, Bool.and_eq_true, decide_eq_true_eq,
            digitChar_toNat _ hm]
          omega

theorem pyNatStr_digits (n : Nat) : ∀ c ∈ pyNatStr n, isAsciiDigit c = true := by
  unfold pyNatStr
  by_cases hn : n = 0
  · rw [if_pos hn]
    intro c hc
    simp only [List.mem_singleton] at hc
    subst hc
    decide
  · rw [if_neg hn]
    exact natStrAux_digits _ n

theorem pyNatStr_ne_nil (n : Nat) : pyNatStr n ≠ [] := by
  unfold pyNatStr
  by_cases hn : n = 0
  · rw [if_pos hn]
    simp
  · rw [if_neg hn]
    unfold natStrAux
    rw [if_neg hn]
    simp

theorem pyIntStr_inj : Function.Injective pyIntStr := by
  intro a b h
  unfold pyIntStr at h
  by_cases ha : a < 0 <;> by_cases hb : b < 0
  · rw [if_pos ha, if_pos hb] at h
    injection h with _ h
    have := pyNatStr_inj h
    omega
  · rw [if_pos ha, if_neg hb] at h
    exfalso
    obtain ⟨c, cs, hcs⟩ : ∃ c cs, pyNatStr b.natAbs = c :: cs := by
      cases hv : pyNatStr b.natAbs with
      | nil => exact absurd hv (pyNatStr_ne_nil _)
      | cons c cs => exact ⟨c, cs, rfl⟩
    rw [hcs] at h
    injection h with h1 _
    have hd : isAsciiDigit c = true := pyNatStr_digits _ c (by rw [hcs]; simp)
    rw [← h1] at hd
    exact absurd hd (by decide)
  · rw [if_neg ha, if_pos hb] at h
    exfalso
    obtain ⟨c, cs, hcs⟩ : ∃ c cs, pyNatStr a.natAbs = c :: cs := by
      cases hv : pyNatStr a.natAbs with
      | nil => exact absurd hv (pyNatStr_ne_nil _)
      | cons c cs => exact ⟨c, cs, rfl⟩
    rw [hcs] at h
    injection h with h1 _
    have hd : isAsciiDigit c = true := pyNatStr_digits _ c (by rw [hcs]; simp)
    rw [h1] at hd
    exact absurd hd (by decide)
  · rw [if_neg ha, if_neg hb] at h
    have := pyNatStr_inj h
    omega

theorem pyQuotePlus_cons (c : Char) (cs : PyStr) :
    pyQuotePlus (c :: cs) =
      (if c = ' ' then ['+']
        else if isAlwaysSafe c then [c]
        else ((utf8Bytes c).map percentByte).flatten) ++ pyQuotePlus cs := rfl

theorem pyQuotePlus_safe_id (s : PyStr) (h : ∀ c ∈ s, isAlwaysSafe c = true) :
    pyQuotePlus s = s := by
  induction s with
  | nil => rfl
  | cons c cs ih =>
      rw [pyQuotePlus_cons]
      have hc : isAlwaysSafe c = true := h c (by simp)
      have hcs : c ≠ ' ' := by
        intro hcon
        rw [hcon] at hc
        exact absurd hc (by decide)
      rw [if_neg hcs, if_pos hc, ih (fun x hx => h x (by simp [hx]))]
      rfl

theorem pyIntStr_safe (k : Int) : ∀ c ∈ pyIntStr k, isAlwaysSafe c = true := by
  intro c hc
  unfold pyIntStr at hc
  have hdig : ∀ x, isAsciiDigit x = true → isAlwaysSafe x = true := by
    intro x hx
    simp [isAlwaysSafe, hx]
  by_cases hk : k < 0
  · rw [if_pos hk] at hc
    rcases List.mem_cons.mp hc with hc | hc
    · subst hc
      decide
    · exact hdig c (pyNatStr_digits _ c hc)
  · rw [if_neg hk] at hc
    exact hdig c (pyNatStr_digits _ c hc)

theorem pyQuotePlus_intStr (k : Int) : pyQuotePlus (pyIntStr k) = pyIntStr k :=
  pyQuotePlus_safe_id _ (pyIntStr_safe k)

theorem dictSet_decomp (D : List (PyStr × List PyStr)) (p : PyStr) :
    ∃ E F, ∀ v, dictSet D p v = E ++ (p, v) :: F := by
  induction D with
  | nil => exact ⟨[], [], fun v => rfl⟩
  | cons kv rest ih =>
      obtain ⟨k', vs⟩ := kv
      obtain ⟨E, F, hEF⟩ := ih
      by_cases hk : k' = p
      · refine ⟨[], rest, fun v => ?_⟩
        unfold dictSet
        rw [if_pos hk, hk]
        rfl
      · refine ⟨(k', vs) :: E, F, fun v => ?_⟩
        unfold dictSet
        rw [if_neg hk, hEF v]
        rfl

/-- One dict entry's `urlencode` segments. -/
def encodeEntry (kv : PyStr × List PyStr) : List PyStr :=
  kv.2.map fun v => pyQuotePlus kv.1 ++ '=' :: pyQuotePlus v

theorem urlencodeSeq_slot (E F : List (PyStr × List PyStr)) (p v : PyStr) :
    urlencodeSeq (E ++ (p, [v]) :: F) =
      joinAmp ((E.map encodeEntry).flatten ++
        (pyQuotePlus p ++ '=' :: pyQuotePlus v) :: (F.map encodeEntry).flatten) := by
  unfold urlencodeSeq
  rw [List.map_append, List.map_cons, List.flatten_append, List.flatten_cons]
  rfl

theorem joinAmp_cons_ne (x : PyStr) (l : List PyStr) (h : l ≠ []) :
    joinAmp (x :: l) = x ++ '&' :: joinAmp l := by
  cases l with
  | nil => exact absurd rfl h
  | cons b bs => rfl

theorem joinAmp_inj_at (A : List PyStr) (s t : PyStr) (B : List PyStr)
    (h : joinAmp (A ++ s :: B) = joinAmp (A ++ t :: B)) : s = t := by
  induction A with
  | nil =>
      cases B with
      | nil => simpa [joinAmp] using h
      | cons b bs =>
          simp only [List.nil_append] at h
          rw [joinAmp_cons_ne s _ (by simp), joinAmp_cons_ne t _ (by simp)] at h
          exact List.append_cancel_right h
  | cons a A' ih =>
      simp only [List.cons_append] at h
      rw [joinAmp_cons_ne a _ (by simp), joinAmp_cons_ne a _ (by simp)] at h
      have h2 := List.append_cancel_left h
      injection h2 with _ h3
      exact ih h3

theorem joinAmp_slot_ne (A : List PyStr) (s : PyStr) (B : List PyStr)
    (hs : s ≠ []) : joinAmp (A ++ s :: B) ≠ [] := by
  cases A with
  | nil =>
      cases B with
      | nil => simpa [joinAmp]
      | cons b bs =>
          rw [List.nil_append, joinAmp_cons_ne s _ (by simp)]
          simp
  | cons a A' =>
      rw [List.cons_append, joinAmp_cons_ne a _ (by simp)]
      simp

theorem urlAddQuery_inj (u q1 q2 : PyStr) (h1 : q1 ≠ []) (h2 : q2 ≠ [])
    (h : urlAddQuery u q1 = urlAddQuery u q2) : q1 = q2 := by
  unfold urlAddQuery at h
  rw [if_pos h1, if_pos h2] at h
  have := List.append_cancel_left h
  injection this

theorem urlAddFragment_inj_left (u1 u2 f : PyStr)
    (h : urlAddFragment u1 f = urlAddFragment u2 f) : u1 = u2 := by
  unfold urlAddFragment at h
  by_cases hf : f ≠ []
  · rw [if_pos hf, if_pos hf] at h
    exact List.append_cancel_right h
  · rwa [if_neg hf, if_neg hf] at h

theorem pyUrlunparse_query_inj (parsed : ParseResult) (q1 q2 : PyStr)
    (h1 : q1 ≠ []) (h2 : q2 ≠ [])
    (h : pyUrlunparse { parsed with query := q1 } =
      pyUrlunparse { parsed with query := q2 }) : q1 = q2 := by
  unfold pyUrlunparse pyUrlunsplit at h
  exact urlAddQuery_inj _ _ _ h1 h2 (urlAddFragment_inj_left _ _ _ h)

/-- The query string `apply_query_pagination` writes is never empty: it
contains the forced parameter's `key=value` segment. -/
theorem applyQuery_query_ne (D : List (PyStr × List PyStr)) (p : PyStr) (k : Int) :
    urlencodeSeq (dictSet D p [pyIntStr k]) ≠ [] := by
  obtain ⟨E, F, hEF⟩ := dictSet_decomp D p
  rw [hEF, urlencodeSeq_slot]
  exact joinAmp_slot_ne _ _ _ (by simp)

/-- Injectivity of `apply_query_pagination` in the page number, for a fixed
parsed base URL. -/
theorem applyQueryPure_inj (parsed : ParseResult) (p : PyStr) :
    Function.Injective (applyQueryPure parsed p) := by
  intro k1 k2 h
  unfold applyQueryPure at h
  have hqeq : urlencodeSeq (dictSet (parseQs parsed.query) p [pyIntStr k1]) =
      urlencodeSeq (dictSet (parseQs parsed.query) p [pyIntStr k2]) :=
    pyUrlunparse_query_inj parsed _ _ (applyQuery_query_ne _ _ _)
      (applyQuery_query_ne _ _ _) h
  obtain ⟨E, F, hEF⟩ := dictSet_decomp (parseQs parsed.query) p
  rw [hEF, hEF, urlencodeSeq_slot, urlencodeSeq_slot] at hqeq
  have hseg := joinAmp_inj_at _ _ _ _ hqeq
  have hval := List.append_cancel_left hseg
  injection hval with _ hval
  rw [pyQuotePlus_intStr, pyQuotePlus_intStr] at hval
  exact pyIntStr_inj hval

/-- Number of replacements `str.replace` performs (parallel to
`replaceAll`'s recursion). -/
def replCount (p : PyStr) : PyStr → Nat
  | [] => 0
  | c :: cs =>
      if p ≠ [] ∧ p.isPrefixOf (c :: cs) = true then
        1 + replCount p ((c :: cs).drop p.length)
      else replCount p cs
termination_by s => s.length
decreasing_by
  · rename_i h
    simp only [List.length_drop, List.length_cons]
    have : p.length ≥ 1 := by
      cases p with
      | nil => exact absurd rfl h.1
      | cons a as => simp
    omega
  · simp

theorem replaceAll_length (p r : PyStr) (hp : p ≠ []) :
    ∀ s : PyStr, (replaceAll p r s).length + replCount p s * p.length =
      s.length + replCount p s * r.length := by
  have hplen : 1 ≤ p.length := by
    cases p with
    | nil => exact absurd rfl hp
    | cons a as => simp
  suffices H : ∀ n (s : PyStr), s.length ≤ n →
      (replaceAll p r s).length + replCount p s * p.length =
        s.length + replCount p s * r.length by
    exact fun s => H s.length s (le_refl _)
  intro n
  induction n with
  | zero =>
      intro s hs
      have : s = [] := List.eq_nil_of_length_eq_zero (Nat.le_zero.mp hs)
      subst this
      simp [replaceAll, replCount]
  | succ n ih =>
      intro s hs
      cases s with
      | nil => simp [replaceAll, replCount]
      | cons c cs =>
          unfold replaceAll replCount
          by_cases hpre : p.isPrefixOf (c :: cs) = true
          · rw [if_pos ⟨hp, hpre⟩, if_pos ⟨hp, hpre⟩]
            have hple : p.length ≤ (c :: cs).length :=
              (List.isPrefixOf_iff_prefix.mp hpre).length_le
            have hrest : ((c :: cs).drop p.length).length ≤ n := by
              simp only [List.length_drop, List.length_cons]
              simp only [List.length_cons] at hs hple
              omega
            have hIH := ih _ hrest
            simp only [List.length_append, List.length_drop, List.length_cons]
              at hIH ⊢
            simp only [List.length_cons] at hs hple
            simp only [Nat.add_mul, Nat.one_mul] at hIH ⊢
            omega
          · rw [if_neg (fun hcon => hpre hcon.2), if_neg (fun hcon => hpre hcon.2)]
            have hIH := ih cs (by simp only [List.length_cons] at hs; omega)
            simp only [List.length_cons]
            omega

theorem infix_of_cons_not_prefixOf (p : PyStr) (c : Char) (cs : PyStr)
    (hin : p <:+: c :: cs) (hpre : p.isPrefixOf (c :: cs) = false) : p <:+: cs := by
  obtain ⟨u, v, huv⟩ := hin
  cases u with
  | nil =>
      exfalso
      have : p <+: c :: cs := ⟨v, by simpa using huv⟩
      rw [List.isPrefixOf_iff_prefix.mpr this] at hpre
      exact absurd hpre (by simp)
  | cons x u' =>
      injection huv with _ huv
      exact ⟨u', v, huv⟩

theorem replCount_pos (p : PyStr) (hp : p ≠ []) :
    ∀ s : PyStr, p <:+: s → 0 < replCount p s := by
  suffices H : ∀ n (s : PyStr), s.length ≤ n → p <:+: s → 0 < replCount p s by
    exact fun s => H s.length s (le_refl _)
  intro n
  induction n with
  | zero =>
      intro s hs hin
      have : s = [] := List.eq_nil_of_length_eq_zero (Nat.le_zero.mp hs)
      subst this
      exact absurd (List.eq_nil_of_infix_nil hin) hp
  | succ n ih =>
      intro s hs hin
      cases s with
      | nil => exact absurd (List.eq_nil_of_infix_nil hin) hp
      | cons c cs =>
          unfold replCount
          by_cases hpre : p.isPrefixOf (c :: cs) = true
          · rw [if_pos ⟨hp, hpre⟩]
            omega
          · rw [if_neg (fun hcon => hpre hcon.2)]
            refine ih cs (by simp only [List.length_cons] at hs; omega) ?_
            exact infix_of_cons_not_prefixOf p c cs hin (Bool.eq_false_iff.mpr hpre)

theorem replaceAll_first_diff (p : PyStr) (r1 r2 : PyStr)
    (hlen : r1.length = r2.length) (hp : p ≠ []) :
    ∀ s : PyStr, p <:+: s → replaceAll p r1 s = replaceAll p r2 s → r1 = r2 := by
  suffices H : ∀ n (s : PyStr), s.length ≤ n → p <:+: s →
      replaceAll p r1 s = replaceAll p r2 s → r1 = r2 by
    exact fun s => H s.length s (le_refl _)
  intro n
  induction n with
  | zero =>
      intro s hs hin _
      have : s = [] := List.eq_nil_of_length_eq_zero (Nat.le_zero.mp hs)
      subst this
      exact absurd (List.eq_nil_of_infix_nil hin) hp
  | succ n ih =>
      intro s hs hin h
      cases s with
      | nil => exact absurd (List.eq_nil_of_infix_nil hin) hp
      | cons c cs =>
          unfold replaceAll at h
          by_cases hpre : p.isPrefixOf (c :: cs) = true
          · rw [if_pos ⟨hp, hpre⟩, if_pos ⟨hp, hpre⟩] at h
            have h1 := congrArg (List.take r1.length) h
            rw [List.take_left, hlen, List.take_left] at h1
            exact h1
          · rw [if_neg (fun hcon => hpre hcon.2), if_neg (fun hcon => hpre hcon.2)] at h
            injection h with _ h
            refine ih cs (by simp only [List.length_cons] at hs; omega) ?_ h
            exact infix_of_cons_not_prefixOf p c cs hin (Bool.eq_false_iff.mpr hpre)

/-- Injectivity of `template.replace("{page}", s)` in `s` when the template
contains the placeholder. -/
theorem replaceAll_inj (p t : PyStr) (hp : p ≠ []) (hin : p <:+: t)
    (r1 r2 : PyStr) (h : replaceAll p r1 t = replaceAll p r2 t) : r1 = r2 := by
  have hcnt := replCount_pos p hp t hin
  have hl1 := replaceAll_length p r1 hp t
  have hl2 := replaceAll_length p r2 hp t
  have hlenout : (replaceAll p r1 t).length = (replaceAll p r2 t).length := by
    rw [h]
  have hlen : r1.length = r2.length := by
    have hmul : replCount p t * r1.length = replCount p t * r2.length := by omega
    exact Nat.eq_of_mul_eq_mul_left hcnt hmul
  exact replaceAll_first_diff p r1 r2 hlen hp t hin h

end PageUrlLemmas

/-- Witness for the amended C1 at a concrete input. -/
theorem build_page_urls_malformed_witness :
    MalformedPagination (.config c1Config) ∧
    ∃ k, 1 ≤ k ∧
      buildPageUrls (.config c1Config) c1Base = .ok (List.replicate k c1Base) ∧
      (PaginationData.config c1Config = .dictInvalid → k = 1) ∧
      (∀ c, PaginationData.config c1Config = .config c ∨
        PaginationData.config c1Config = .dictParsed c → k = effPages c) :=
  ⟨Or.inr ⟨c1Config, Or.inl rfl, Or.inl ⟨rfl, rfl⟩⟩,
    build_page_urls_malformed (.config c1Config) c1Base
      (Or.inr ⟨c1Config, Or.inl rfl, Or.inl ⟨rfl, rfl⟩⟩)⟩

theorem mapM_ok_map (l : List Nat) (f : Nat → Except Unit PyStr) (g : Nat → PyStr)
    (hf : ∀ x ∈ l, f x = .ok (g x)) : l.mapM f = .ok (l.map g) := by
  induction l with
  | nil => rfl
  | cons x xs ih =>
      rw [List.mapM_cons, hf x (by simp)]
      rw [ih (fun y hy => hf y (by simp [hy]))]
      rfl

/-- C5's hypothesis: a well-formed strategy.  For the query strategy the
site's base URL must parse (true of every pydantic-validated `HttpUrl`);
for the path strategy the template must contain the placeholder. -/
def WellFormedStrategy (c : PaginationConfig) (base : PyStr) : Prop :=
  (c.strategy = .query ∧ pyTruthy c.parameter = true ∧
    ∃ pr, pyUrlparseE base = .ok pr) ∨
  (c.strategy = .path ∧ pyTruthy c.template = true ∧
    containsPlaceholder (c.template.getD []) = true)

/-- The config of the C5 counterexample: valid, well-formed query strategy,
but `start = 0`. -/
def c5CeConfig : PaginationConfig := ⟨.query, some (r"page".toList), none, 0, 2⟩

def c5Base : PyStr := r"http://example.com/list".toList

/-- C5 counterexample: with `start = 0` and `pages = 2` the claimed page
coverage `start .. start+n-1` = `{0, 1}` fails: `start or 1` turns a zero
start into 1, so the built URLs are for pages 1 and 2 and the page-0 URL is
absent. -/
theorem build_page_urls_start_counterexample :
    buildPageUrls (.config c5CeConfig) c5Base =
      .ok [r"http://example.com/list?page=1".toList,
        r"http://example.com/list?page=2".toList] ∧
    applyQueryPagination c5Base (r"page".toList) 0 =
      .ok (r"http://example.com/list?page=0".toList) ∧
    (r"http://example.com/list?page=0".toList) ∉
      [r"http://example.com/list?page=1".toList,
        r"http://example.com/list?page=2".toList] := by
  refine ⟨by decide, by decide, by decide⟩

/-- C5 (amended): for every valid `PaginationConfig` with `pages = n ≥ 1`
and a well-formed strategy, `build_page_urls` returns exactly `n` pairwise
distinct URLs, the `i`-th being the page URL for page number
`start' + i` where `start' = (start or 1)`. -/
theorem build_page_urls_wellformed (c : PaginationConfig) (base : PyStr)
    (n : Nat) (hn : 1 ≤ n) (hpg : c.pages = (n : Int))
    (hw : WellFormedStrategy c base) :
    ∃ urls, buildPageUrls (.config c) base = .ok urls ∧ urls.length = n ∧
      urls.Pairwise (· ≠ ·) ∧
      ∀ i, i < n →
        Except.ok (urls.getD i base) =
          pageUrlFor c base (effStart c + Int.ofNat i) := by
  obtain ⟨f, hfinj, hf⟩ : ∃ f : Int → PyStr, Function.Injective f ∧
      ∀ k, pageUrlFor c base k = .ok (f k) := by
    rcases hw with ⟨hs, hp, pr, hpr⟩ | ⟨hs, ht, hinf⟩
    · refine ⟨applyQueryPure pr (c.parameter.getD []), applyQueryPure_inj pr _, ?_⟩
      intro k
      unfold pageUrlFor
      rw [if_pos ⟨hs, hp⟩]
      unfold applyQueryPagination
      rw [hpr]
      rfl
    · refine ⟨fun k => replaceAll pagePlaceholder (pyIntStr k) (c.template.getD []),
        ?_, ?_⟩
      · intro k1 k2 h
        refine pyIntStr_inj (replaceAll_inj pagePlaceholder _ (by decide) ?_ _ _ h)
        exact of_decide_eq_true hinf
      · intro k
        unfold pageUrlFor
        rw [if_neg (fun hcon => by rw [hs] at hcon; exact absurd hcon.1 (by decide))]
        rw [if_pos ⟨hs, ht, hinf⟩]
  have hEff : effPages c = n := by
    unfold effPages
    rw [hpg, if_neg (by omega : ¬((n : Int) = 0))]
    omega
  have hginj : Function.Injective (fun off : Nat => f (effStart c + Int.ofNat off)) := by
    intro a b hab
    have h2 : effStart c + Int.ofNat a = effStart c + Int.ofNat b := hfinj hab
    have h3 : Int.ofNat a = Int.ofNat b := add_left_cancel h2
    exact Int.ofNat.inj h3
  have hmap : (List.range (effPages c)).mapM
      (fun off => pageUrlFor c base (effStart c + Int.ofNat off)) =
      .ok ((List.range (effPages c)).map
        (fun off => f (effStart c + Int.ofNat off))) :=
    mapM_ok_map _ _ _ (fun x _ => hf _)
  have hne : (List.range (effPages c)).map
      (fun off => f (effStart c + Int.ofNat off)) ≠ [] := by
    simp only [ne_eq, List.map_eq_nil_iff, List.range_eq_nil]
    omega
  refine ⟨(List.range (effPages c)).map (fun off => f (effStart c + Int.ofNat off)),
    ?_, ?_, ?_, ?_⟩
  · show buildPageUrlsCore c base = _
    have hstep : buildPageUrlsCore c base =
        pure (if (List.range (effPages c)).map
            (fun off => f (effStart c + Int.ofNat off)) = [] then [base]
          else (List.range (effPages c)).map
            (fun off => f (effStart c + Int.ofNat off))) := by
      unfold buildPageUrlsCore
      rw [hmap]
      rfl
    rw [hstep, if_neg hne]
    rfl
  · simp [hEff]
  · exact List.Nodup.map hginj (List.nodup_range _)
  · intro i hi
    have hi' : i < ((List.range (effPages c)).map
        (fun off => f (effStart c + Int.ofNat off))).length := by
      simp only [List.length_map, List.length_range, hEff]
      omega
    rw [List.getD_eq_getElem _ _ hi', List.getElem_map, List.getElem_range]
    exact (hf _).symm

/-- The config of the C5 witness: well-formed query strategy, two pages. -/
def c5WConfig : PaginationConfig := ⟨.query, some (r"page".toList), none, 1, 2⟩

/-- Witness for the amended C5 at a concrete input. -/
theorem build_page_urls_wellformed_witness :
    (1 ≤ 2 ∧ c5WConfig.pages = ((2 : Nat) : Int) ∧
      WellFormedStrategy c5WConfig c5Base) ∧
    ∃ urls, buildPageUrls (.config c5WConfig) c5Base = .ok urls ∧
      urls.length = 2 ∧ urls.Pairwise (· ≠ ·) ∧
      ∀ i, i < 2 →
        Except.ok (urls.getD i c5Base) =
          pageUrlFor c5WConfig c5Base (effStart c5WConfig + Int.ofNat i) :=
  ⟨⟨by norm_num, by decide, Or.inl ⟨rfl, by decide, ⟨_, rfl⟩⟩⟩,
    build_page_urls_wellformed c5WConfig c5Base 2 (by norm_num) (by decide)
      (Or.inl ⟨rfl, by decide, ⟨_, rfl⟩⟩)⟩

/-!
Section 8: the in-memory store (`InMemoryStore`), `normalize_host`,
`add_site`, `update_site` and `matches_from_cache` (claims C7 and C8).
Datetimes are abstract tick counts (`Nat`); disk persistence
(`_persist_websites`, `_load_from_disk`) is I/O and not modeled;
`HTTPException(status_code=...)` is `Except.error status_code`.
-/

/-- Hostname component of `_hostinfo` (urllib): the part of the netloc
after the last `@`; a bracketed host is the text between the first `[` and
the following `]`, otherwise the host runs to the first `:`. -/
def hostnameRaw (netloc : PyStr) : PyStr :=
  let hostinfo := match pyRfind '@' netloc with
    | some i => netloc.drop (i + 1)
    | none => netloc
  if hostinfo.contains '[' then
    ((hostinfo.dropWhile fun c => !(c == '[')).drop 1).takeWhile
      fun c => !(c == ']')
  else hostinfo.takeWhile fun c => !(c == ':')

/-- The `hostname` property of a urllib split result: `None` for an empty
host, otherwise the host lowercased (an IPv6 zone id after `%` is kept
as-is, as in CPython 3.11). -/
def pyHostname (netloc : PyStr) : Option PyStr :=
  let h := hostnameRaw netloc
  if h = [] then none
  else some ((h.takeWhile fun c => !(c == '%')).map pyLowerChar ++
    h.dropWhile fun c => !(c == '%'))

/-- `normalize_host` from main.py: the URL's hostname — or the raw value
when parsing raises `ValueError` or yields no host — lowercased, with a
leading `www.` stripped. -/
def normalizeHost (value : PyStr) : PyStr :=
  let host : PyStr :=
    match pyUrlsplitE value with
    | .error _ => value
    | .ok sr =>
        match pyHostname sr.netloc with
        | some h => h
        | none => value
  let host2 := host.map pyLowerChar
  if (r"www.".toList).isPrefixOf host2 then host2.drop 4 else host2

/-- `normalize_optional_str` from main.py: strip, mapping a blank result to
`None`. -/
def normalizeOptionalStr (value : Option PyStr) : Option PyStr :=
  match value with
  | none => none
  | some s => if pyStrip s = [] then none else some (pyStrip s)

/-- Python `dict[k] = v` on an insertion-ordered association list: an
existing key keeps its position, a new key is appended. -/
def dictInsert {β : Type} (d : List (PyStr × β)) (k : PyStr) (v : β) :
    List (PyStr × β) :=
  if (d.lookup k).isSome then
    d.map fun kv => if kv.1 = k then (k, v) else kv
  else d ++ [(k, v)]

/-- Python `dict.pop(k, None)`: the store's dicts have unique keys, so
removing every binding of `k` is exact. -/
def dictPop {β : Type} (d : List (PyStr × β)) (k : PyStr) :
    List (PyStr × β) :=
  d.filter fun kv => decide (kv.1 ≠ k)

/-- `StoredCookie` from main.py (`expires` as an exact rational). -/
structure StoredCookie where
  name : PyStr
  value : PyStr
  domain : Option PyStr
  path : Option PyStr
  expires : Option ℚ
  secure : Bool
deriving DecidableEq

/-- `Website` from main.py; `url` is the serialized `HttpUrl` string and
`last_reauth_at` an abstract timestamp. -/
structure Website where
  id : PyStr
  label : PyStr
  url : PyStr
  pagination : Option PaginationConfig
  series_url_template : Option PyStr
  chapter_url_template : Option PyStr
  auth_cookies : List StoredCookie
  last_reauth_at : Option Nat
deriving DecidableEq

/-- `WebsiteCreate` from main.py. -/
structure WebsiteCreate where
  label : PyStr
  url : PyStr
  pagination : Option PaginationConfig
  series_url_template : Option PyStr
  chapter_url_template : Option PyStr
deriving DecidableEq

/-- One field of a pydantic update payload as seen through
`model_dump(exclude_unset=True)`: absent from the payload, explicitly
null, or set to a value. -/
inductive UpdField (α : Type) : Type
  | unset : UpdField α
  | setNone : UpdField α
  | setVal : α → UpdField α
deriving DecidableEq

/-- `WebsiteUpdate` from main.py. -/
structure WebsiteUpdate where
  label : UpdField PyStr
  url : UpdField PyStr
  pagination : UpdField PaginationConfig
  series_url_template : UpdField PyStr
  chapter_url_template : UpdField PyStr
  auth_cookies : UpdField (List StoredCookie)
deriving DecidableEq

/-- The mutable state of `InMemoryStore` the claims touch: `websites`,
`site_cache` and `site_cache_meta`, each an insertion-ordered dict
(`series` is not involved in any claim). -/
structure StoreState where
  websites : List (PyStr × Website)
  site_cache : List (PyStr × PyStr)
  site_cache_meta : List (PyStr × Nat)
deriving DecidableEq

/-- `site.model_copy(update=update_data)` after `update_site`'s
normalization passes: a set label is stripped, set templates go through
`normalize_optional_str`, a null `pagination` clears the field.  (Setting
`label`, `url` or `auth_cookies` explicitly to null would store a null in
a non-optional field in Python; no claim exercises that, and the model
keeps the previous value there.) -/
def applyUpdate (site : Website) (p : WebsiteUpdate) : Website :=
  { site with
    label := match p.label with
      | .setVal v => pyStrip v
      | _ => site.label,
    url := match p.url with
      | .setVal v => v
      | _ => site.url,
    pagination := match p.pagination with
      | .setVal c => some c
      | .setNone => none
      | .unset => site.pagination,
    series_url_template := match p.series_url_template with
      | .setVal v => normalizeOptionalStr (some v)
      | .setNone => none
      | .unset => site.series_url_template,
    chapter_url_template := match p.chapter_url_template with
      | .setVal v => normalizeOptionalStr (some v)
      | .setNone => none
      | .unset => site.chapter_url_template,
    auth_cookies := match p.auth_cookies with
      | .setVal v => v
      | _ => site.auth_cookies }

/-- `InMemoryStore.update_site`: 404 for an unknown id; a payload that
sets `url` to a value first checks every *other* site for a normalized-host
conflict (409) and then pops the site's cached body and timestamp; finally
the updated copy replaces the stored site. -/
def updateSite (st : StoreState) (siteId : PyStr) (p : WebsiteUpdate) :
    StoreState × Except Nat Website :=
  match st.websites.lookup siteId with
  | none => (st, .error 404)
  | some site =>
      match p.url with
      | .setVal newUrl =>
          if st.websites.any (fun kv =>
              decide (kv.1 ≠ siteId) &&
                (normalizeHost kv.2.url == normalizeHost newUrl)) then
            (st, .error 409)
          else
            (⟨dictInsert st.websites siteId (applyUpdate site p),
              dictPop st.site_cache siteId,
              dictPop st.site_cache_meta siteId⟩, .ok (applyUpdate site p))
      | _ =>
          (⟨dictInsert st.websites siteId (applyUpdate site p),
            st.site_cache, st.site_cache_meta⟩, .ok (applyUpdate site p))

/-- `InMemoryStore.add_site`: reject (409) a payload whose normalized host
matches any tracked site, otherwise store a new `Website` under the fresh
id (`uuid4()` is modeled as the `newId` argument; cookies start empty). -/
def addSite (st : StoreState) (newId : PyStr) (payload : WebsiteCreate) :
    StoreState × Except Nat Website :=
  if (st.websites.map Prod.snd).any
      (fun existing =>
        normalizeHost existing.url == normalizeHost payload.url) then
    (st, .error 409)
  else
    (⟨dictInsert st.websites newId
        ⟨newId, pyStrip payload.label, payload.url, payload.pagination,
          normalizeOptionalStr payload.series_url_template,
          normalizeOptionalStr payload.chapter_url_template, [], none⟩,
      st.site_cache, st.site_cache_meta⟩,
     .ok ⟨newId, pyStrip payload.label, payload.url, payload.pagination,
       normalizeOptionalStr payload.series_url_template,
       normalizeOptionalStr payload.chapter_url_template, [], none⟩)

/-- A series search term as `matches_from_cache` reads it: the `display`
title and the normalized `search` label (no other key of the term dict is
used there). -/
structure SeriesTerm where
  display : PyStr
  search : PyStr
deriving DecidableEq

/-- `match_index.setdefault(display_title, {})[source_label] = hit`. -/
def indexInsert (mi : List (PyStr × List (PyStr × SourceHit)))
    (title lab : PyStr) (hit : SourceHit) :
    List (PyStr × List (PyStr × SourceHit)) :=
  if (mi.lookup title).isSome then
    mi.map fun kv =>
      if kv.1 = title then (kv.1, dictInsert kv.2 lab hit) else kv
  else mi ++ [(title, [(lab, hit)])]

/-- One iteration of `matches_from_cache`'s site loop.  `parseHtml body
url` stands for `build_soup` followed by `extract_candidate_entries`
(BeautifulSoup is an external collaborator; `none` is a failed parse).  A
missing or empty cached body sets the `missing_cache` flag and skips the
site; after a successful parse, a site URL that `urlparse` rejects raises
out of the loop (`urlparse(str(site.url)).netloc` is unguarded there). -/
def matchSiteStep (parseHtml : PyStr → PyStr → Option (List CandidateEntry))
    (st : StoreState) (seriesTerms : List SeriesTerm)
    (acc : List (PyStr × List (PyStr × SourceHit)) × Bool) (site : Website) :
    Except Unit (List (PyStr × List (PyStr × SourceHit)) × Bool) :=
  match st.site_cache.lookup site.id with
  | none => .ok (acc.1, true)
  | some body =>
      if body = [] then .ok (acc.1, true)
      else
        match parseHtml body site.url with
        | none => .ok acc
        | some candidates =>
            (pyUrlsplitE site.url).map fun sr =>
              (seriesTerms.foldl
                (fun idx term =>
                  match locateSeriesHit candidates term.search site.url
                      (st.site_cache_meta.lookup site.id) with
                  | none => idx
                  | some hit =>
                      indexInsert idx term.display
                        (if site.label = [] then normalizeHost site.url
                          else site.label)
                        ⟨(if site.label = [] then normalizeHost site.url
                            else site.label),
                          some (if hit.1 = [] then site.url else hit.1),
                          hit.2.1, hit.2.2.1, hit.2.2.2,
                          site.series_url_template,
                          site.chapter_url_template,
                          some (sr.netloc.map pyLowerChar)⟩)
                acc.1, acc.2)

/-- `matches_from_cache` from main.py, returning the serialized matches
and the `missing_cache` flag; `Except.error` is a `ValueError` escaping
the loop (impossible for pydantic-validated stored URLs). -/
def matchesFromCache
    (parseHtml : PyStr → PyStr → Option (List CandidateEntry))
    (st : StoreState) (websites : List Website)
    (seriesTerms : List SeriesTerm) :
    Except Unit (List MatchResult × Bool) :=
  if seriesTerms = [] then .ok ([], false)
  else
    (websites.foldlM (matchSiteStep parseHtml st seriesTerms)
      ([], false)).map fun res => (serializeMatches res.1, res.2)

section StoreLemmas

theorem lookup_dictPop {β : Type} (d : List (PyStr × β)) (k : PyStr) :
    (dictPop d k).lookup k = none := by
  induction d with
  | nil => rfl
  | cons kv d ih =>
      obtain ⟨k1, v1⟩ := kv
      simp only [dictPop, List.filter_cons] at ih ⊢
      by_cases h : k1 = k
      · have hne : (decide ¬(k1 = k)) = false := by simp [h]
        simp only [ne_eq, hne, Bool.false_eq_true, if_false]
        exact ih
      · have hne : (decide ¬(k1 = k)) = true := by simp [h]
        simp only [ne_eq, hne, if_true, List.lookup]
        have hbeq : (k == k1) = false := beq_eq_false_iff_ne.mpr (Ne.symm h)
        simp only [hbeq]
        exact ih

theorem lookup_mem {β : Type} (d : List (PyStr × β)) (k : PyStr) (v : β)
    (h : d.lookup k = some v) : (k, v) ∈ d := by
  induction d with
  | nil => cases h
  | cons kv d ih =>
      obtain ⟨k1, v1⟩ := kv
      simp only [List.lookup] at h
      cases hbeq : (k == k1) with
      | true =>
          simp only [hbeq] at h
          have hk : k = k1 := eq_of_beq hbeq
          have hv : v1 = v := by injection h
          rw [hk, hv]
          exact List.mem_cons_self _ _
      | false =>
          simp only [hbeq] at h
          exact List.mem_cons_of_mem _ (ih h)

theorem matchSiteStep_missing
    (parseHtml : PyStr → PyStr → Option (List CandidateEntry))
    (st : StoreState) (terms : List SeriesTerm)
    (acc : List (PyStr × List (PyStr × SourceHit)) × Bool) (site : Website)
    (hbody : st.site_cache.lookup site.id = none ∨
      st.site_cache.lookup site.id = some []) :
    matchSiteStep parseHtml st terms acc site = .ok (acc.1, true) := by
  rcases hbody with hb | hb
  · simp only [matchSiteStep, hb]
  · simp only [matchSiteStep, hb]
    rw [if_pos trivial]

theorem matchSiteStep_flag
    (parseHtml : PyStr → PyStr → Option (List CandidateEntry))
    (st : StoreState) (terms : List SeriesTerm)
    (acc : List (PyStr × List (PyStr × SourceHit)) × Bool) (site : Website)
    (r : List (PyStr × List (PyStr × SourceHit)) × Bool)
    (hacc : acc.2 = true)
    (hs : matchSiteStep parseHtml st terms acc site = .ok r) :
    r.2 = true := by
  simp only [matchSiteStep] at hs
  cases hlk : st.site_cache.lookup site.id with
  | none =>
      simp only [hlk] at hs
      have h := Except.ok.inj hs
      rw [← h]
  | some body =>
      simp only [hlk] at hs
      by_cases hb : body = []
      · rw [if_pos hb] at hs
        have h := Except.ok.inj hs
        rw [← h]
      · rw [if_neg hb] at hs
        cases hp : parseHtml body site.url with
        | none =>
            simp only [hp] at hs
            have h := Except.ok.inj hs
            rw [← h]
            exact hacc
        | some candidates =>
            simp only [hp] at hs
            cases hu : pyUrlsplitE site.url with
            | error e =>
                simp only [hu, Except.map] at hs
                exact Except.noConfusion hs
            | ok sr =>
                simp only [hu, Except.map] at hs
                have h := Except.ok.inj hs
                rw [← h]
                exact hacc

theorem matchFold_missing
    (parseHtml : PyStr → PyStr → Option (List CandidateEntry))
    (st : StoreState) (terms : List SeriesTerm) :
    ∀ (websites : List Website)
      (acc res : List (PyStr × List (PyStr × SourceHit)) × Bool),
    ((∃ site ∈ websites, st.site_cache.lookup site.id = none ∨
        st.site_cache.lookup site.id = some []) ∨ acc.2 = true) →
    websites.foldlM (matchSiteStep parseHtml st terms) acc = .ok res →
    res.2 = true := by
  intro websites
  induction websites with
  | nil =>
      intro acc res h hf
      rcases h with ⟨site, hmem, _⟩ | h
      · cases hmem
      · simp only [List.foldlM_nil] at hf
        have h2 : acc = res := Except.ok.inj hf
        rw [← h2]
        exact h
  | cons s ss ih =>
      intro acc res h hf
      rw [List.foldlM_cons] at hf
      cases hs : matchSiteStep parseHtml st terms acc s with
      | error e =>
          rw [hs] at hf
          exact Except.noConfusion
            (show (Except.error e : Except Unit
              (List (PyStr × List (PyStr × SourceHit)) × Bool)) = .ok res
              from hf)
      | ok acc' =>
          rw [hs] at hf
          have hf' : ss.foldlM (matchSiteStep parseHtml st terms) acc' =
              .ok res := hf
          rcases h with ⟨site, hmem2, hb⟩ | hacc
          · rcases List.mem_cons.mp hmem2 with heq | hmem3
            · have h1 := matchSiteStep_missing parseHtml st terms acc s
                (heq ▸ hb)
              rw [h1] at hs
              have h2 : ((acc.1, true) :
                  List (PyStr × List (PyStr × SourceHit)) × Bool) = acc' :=
                Except.ok.inj hs
              exact ih acc' res (Or.inr (by rw [← h2])) hf'
            · exact ih acc' res (Or.inl ⟨site, hmem3, hb⟩) hf'
          · exact ih acc' res
              (Or.inr (matchSiteStep_flag parseHtml st terms acc s acc'
                hacc hs)) hf'

theorem matchesFromCache_missing
    (parseHtml : PyStr → PyStr → Option (List CandidateEntry))
    (st : StoreState) (websites : List Website) (terms : List SeriesTerm)
    (hterms : terms ≠ []) (site : Website) (hmem : site ∈ websites)
    (hbody : st.site_cache.lookup site.id = none ∨
      st.site_cache.lookup site.id = some [])
    (res : List MatchResult × Bool)
    (hres : matchesFromCache parseHtml st websites terms = .ok res) :
    res.2 = true := by
  simp only [matchesFromCache] at hres
  rw [if_neg hterms] at hres
  cases hf : websites.foldlM (matchSiteStep parseHtml st terms) ([], false)
      with
  | error e =>
      rw [hf] at hres
      simp only [Except.map] at hres
      exact Except.noConfusion hres
  | ok r =>
      rw [hf] at hres
      simp only [Except.map] at hres
      have h := Except.ok.inj hres
      rw [← h]
      exact matchFold_missing parseHtml st terms websites ([], false) r
        (Or.inl ⟨site, hmem, hbody⟩) hf

end StoreLemmas

/-- C7: for every tracked site (the store keys every site by its id), an
`update_site` call whose payload sets the `url` field to a value and
succeeds removes the site's cached snapshot body and its timestamp, and
every subsequent `matches_from_cache` query over a nonempty term list that
scans the updated site reports `missing_cache = true`. -/
theorem update_site_url_purges_cache (st : StoreState) (siteId : PyStr)
    (p : WebsiteUpdate) (newUrl : PyStr) (st' : StoreState) (w : Website)
    (hkey : ∀ kv ∈ st.websites, kv.2.id = kv.1)
    (hurl : p.url = .setVal newUrl)
    (hok : updateSite st siteId p = (st', .ok w)) :
    st'.site_cache.lookup siteId = none ∧
    st'.site_cache_meta.lookup siteId = none ∧
    ∀ (parseHtml : PyStr → PyStr → Option (List CandidateEntry))
      (websites : List Website) (terms : List SeriesTerm)
      (res : List MatchResult × Bool),
      terms ≠ [] → w ∈ websites →
      matchesFromCache parseHtml st' websites terms = .ok res →
      res.2 = true := by
  cases hlk : st.websites.lookup siteId with
  | none =>
      simp only [updateSite, hlk] at hok
      exact absurd (congrArg Prod.snd hok) (by simp)
  | some site =>
      simp only [updateSite, hlk, hurl] at hok
      by_cases hc : st.websites.any (fun kv =>
          decide (kv.1 ≠ siteId) &&
            (normalizeHost kv.2.url == normalizeHost newUrl)) = true
      · rw [if_pos hc] at hok
        exact absurd (congrArg Prod.snd hok) (by simp)
      · rw [if_neg hc] at hok
        have hst : (⟨dictInsert st.websites siteId (applyUpdate site p),
            dictPop st.site_cache siteId,
            dictPop st.site_cache_meta siteId⟩ : StoreState) = st' :=
          congrArg Prod.fst hok
        have hw : applyUpdate site p = w :=
          Except.ok.inj (congrArg Prod.snd hok)
        have hid : w.id = siteId := by
          rw [← hw]
          have h1 : (applyUpdate site p).id = site.id := rfl
          rw [h1]
          exact hkey (siteId, site) (lookup_mem st.websites siteId site hlk)
        refine ⟨?_, ?_, ?_⟩
        · rw [← hst]
          exact lookup_dictPop st.site_cache siteId
        · rw [← hst]
          exact lookup_dictPop st.site_cache_meta siteId
        · intro parseHtml websites terms res hterms hmem hres
          refine matchesFromCache_missing parseHtml st' websites terms hterms
            w hmem (Or.inl ?_) res hres
          rw [← hst, hid]
          exact lookup_dictPop st.site_cache siteId

/-- The tracked site of the C7 witness. -/
def c7Site : Website :=
  ⟨r"s1".toList, r"Site".toList, r"http://a.example/".toList,
    none, none, none, [], none⟩

/-- The store of the C7 witness: one site with a cached body and
timestamp. -/
def c7Store : StoreState :=
  ⟨[(r"s1".toList, c7Site)], [(r"s1".toList, r"<html></html>".toList)],
    [(r"s1".toList, 5)]⟩

/-- The C7 witness payload: sets only `url`. -/
def c7Payload : WebsiteUpdate :=
  ⟨.unset, .setVal (r"http://b.example/".toList), .unset, .unset, .unset,
    .unset⟩

/-- The updated site of the C7 witness. -/
def c7Updated : Website :=
  ⟨r"s1".toList, r"Site".toList, r"http://b.example/".toList,
    none, none, none, [], none⟩

/-- The store after the C7 witness update: cache and meta purged. -/
def c7Store2 : StoreState := ⟨[(r"s1".toList, c7Updated)], [], []⟩

/-- Witness for C7 at a concrete one-site store. -/
theorem update_site_url_purges_cache_witness :
    ((∀ kv ∈ c7Store.websites, kv.2.id = kv.1) ∧
      c7Payload.url = .setVal (r"http://b.example/".toList) ∧
      updateSite c7Store (r"s1".toList) c7Payload =
        (c7Store2, .ok c7Updated)) ∧
    (c7Store2.site_cache.lookup (r"s1".toList) = none ∧
      c7Store2.site_cache_meta.lookup (r"s1".toList) = none ∧
      ∀ (parseHtml : PyStr → PyStr → Option (List CandidateEntry))
        (websites : List Website) (terms : List SeriesTerm)
        (res : List MatchResult × Bool),
        terms ≠ [] → c7Updated ∈ websites →
        matchesFromCache parseHtml c7Store2 websites terms = .ok res →
        res.2 = true) :=
  ⟨⟨by decide, by decide, by decide⟩,
    update_site_url_purges_cache c7Store (r"s1".toList) c7Payload
      (r"http://b.example/".toList) c7Store2 c7Updated (by decide)
      (by decide) (by decide)⟩

/-- C8: for every store state and site-creation payload whose URL has the
same normalized host (lowercased, leading `www.` stripped) as an
already-tracked site, `add_site` fails with HTTP 409 and returns the store
unchanged. -/
theorem add_site_conflict (st : StoreState) (newId : PyStr)
    (payload : WebsiteCreate)
    (h : ∃ kv ∈ st.websites,
      normalizeHost kv.2.url = normalizeHost payload.url) :
    addSite st newId payload = (st, .error 409) := by
  obtain ⟨kv, hmem, heq⟩ := h
  have hany : (st.websites.map Prod.snd).any
      (fun existing =>
        normalizeHost existing.url == normalizeHost payload.url) = true := by
    rw [List.any_eq_true]
    exact ⟨kv.2, List.mem_map.mpr ⟨kv, hmem, rfl⟩, beq_iff_eq.mpr heq⟩
  simp only [addSite]
  rw [if_pos hany]

/-- The tracked site of the C8 witness: `www.` prefix and mixed case. -/
def c8Existing : Website :=
  ⟨r"s1".toList, r"A".toList, r"http://www.Example.com/x".toList,
    none, none, none, [], none⟩

/-- The store of the C8 witness. -/
def c8Store : StoreState := ⟨[(r"s1".toList, c8Existing)], [], []⟩

/-- The C8 witness payload: same host, no `www.`, different casing. -/
def c8Payload : WebsiteCreate :=
  ⟨r"B".toList, r"http://Example.COM/".toList, none, none, none⟩

/-- Witness for C8 at a concrete store. -/
theorem add_site_conflict_witness :
    (∃ kv ∈ c8Store.websites,
      normalizeHost kv.2.url = normalizeHost c8Payload.url) ∧
    addSite c8Store (r"s2".toList) c8Payload = (c8Store, .error 409) :=
  ⟨by decide, add_site_conflict c8Store (r"s2".toList) c8Payload (by decide)⟩

end MangaTracker
